import Mathlib

/-!
# StableGuard — verification of the spec against the code

A shallow embedding of the stablecoin indexer's core components:
the anomaly rules (`src/anomaly/rules.rs`), the anomaly engine
(`src/anomaly/engine.rs`), the transfer decoder (`src/indexer/decoder.rs`),
the persistence layer (`src/db/repository.rs`), the wallet-graph tracker
(`src/graph/tracker.rs`), the reorg handling of the chain indexer
(`src/indexer/chain.rs`), and the RPC retry policy.

Modelling conventions:
* Rust `BigDecimal` and `f64` quantities are modelled as `ℚ`.  The claims
  under scrutiny only involve values and comparisons that 64-bit floats
  represent without a rounding step that could flip a comparison.
* Byte strings (`Vec<u8>`, hashes, addresses) are `List Nat`.
* Timestamps (`DateTime<Utc>`) are `ℚ` (seconds); SQL interval arithmetic
  subtracts seconds.
* A PostgreSQL table is a list of rows; `ON CONFLICT` clauses become
  explicit conflict checks against the table's natural key.
-/

namespace StableGuard

-- Batteries marks the `Rat` field operations `@[irreducible]`; restore
-- reducibility in this file so concrete scenario evaluations can be settled
-- by `decide`.
attribute [local semireducible] Rat.add Rat.mul Rat.inv Rat.sub

/-- Token metadata from the watched-token registry
(`src/indexer/types.rs`, `TokenMeta`). -/
structure TokenMeta where
  symbol : String
  decimals : Int
deriving DecidableEq, Repr

/-- A decoded stablecoin transfer (`src/indexer/types.rs`,
`StablecoinTransfer`).  `amount` is the raw on-chain integer value kept as an
exact decimal (`BigDecimal` in the code, `ℚ` here); `blockTimestamp` is in
seconds. -/
structure StablecoinTransfer where
  chainId : Int
  blockNumber : Int
  blockHash : List Nat
  txHash : List Nat
  logIndex : Int
  tokenAddress : List Nat
  fromAddress : List Nat
  toAddress : List Nat
  amount : ℚ
  tokenSymbol : String
  tokenDecimals : Int
  blockTimestamp : ℚ
deriving DecidableEq, Repr

/-- Anomaly categories (`src/anomaly/types.rs`, `AnomalyType`). -/
inductive AnomalyType where
  | largeTransfer
  | velocity
  | sanctionedCounterparty
  | roundNumber
  | newWalletLargeReceive
  | crossChainActivity
deriving DecidableEq, Repr

/-- String names used in the database (`AnomalyType::as_str`). -/
def AnomalyType.asStr : AnomalyType → String
  | .largeTransfer => "large_transfer"
  | .velocity => "velocity"
  | .sanctionedCounterparty => "sanctioned_counterparty"
  | .roundNumber => "round_number"
  | .newWalletLargeReceive => "new_wallet_large_receive"
  | .crossChainActivity => "cross_chain_activity"

/-- A detected anomaly ready for insertion (`src/anomaly/types.rs`,
`AnomalyRecord`).  The `flags` strings and the `details` JSON blob are
log/reporting payloads built with string formatting; no claim depends on
them, so they are not modelled. -/
structure AnomalyRecord where
  chainId : Int
  anomalyType : AnomalyType
  riskScore : ℚ
  address : Option (List Nat)
  txHash : List Nat
  logIndex : Int
deriving DecidableEq, Repr

/-- The Rust cast `decimals as u32` applied to an `i16` value
(`src/anomaly/rules.rs:282`): sign-extension followed by reinterpretation,
i.e. reduction modulo `2^32`. -/
def castI16ToU32 (d : Int) : Nat :=
  (d % 4294967296).toNat

/-- `raw_to_human` (`src/anomaly/rules.rs:281-285`): divide the raw amount by
`10^(decimals as u32)`.  In the code the divisor is computed in `u64`, so the
computation overflows whenever `10 ^ castI16ToU32 decimals` does not fit in
64 bits — that side condition is analysed separately; here the division is
the exact rational one. -/
def rawToHuman (amount : ℚ) (decimals : Int) : ℚ :=
  amount / (10 : ℚ) ^ castI16ToU32 decimals

/-- Threshold lookup of `check_large_transfer`
(`src/anomaly/rules.rs:17-21`): token-symbol entry, else the `"default"`
entry, else `100000`.  The `HashMap<String, f64>` is modelled as an
association list. -/
def lookupThreshold (thresholds : List (String × ℚ)) (symbol : String) : ℚ :=
  ((thresholds.lookup symbol).or (thresholds.lookup "default")).getD 100000

/-- `check_large_transfer` (`src/anomaly/rules.rs:13-55`). -/
def checkLargeTransfer (t : StablecoinTransfer) (thresholds : List (String × ℚ)) :
    Option AnomalyRecord :=
  let threshold := lookupThreshold thresholds t.tokenSymbol
  let humanAmount := rawToHuman t.amount t.tokenDecimals
  if threshold ≤ humanAmount then
    some { chainId := t.chainId
           anomalyType := .largeTransfer
           riskScore :=
             if threshold * 10 ≤ humanAmount then 80
             else if threshold * 5 ≤ humanAmount then 60
             else 40
           address := none
           txHash := t.txHash
           logIndex := t.logIndex }
  else none

/-- The `%` of `f64` on the non-negative operands reached by the round-number
rule: `a - b * trunc (a / b)`, which for `0 ≤ a` and `0 < b` equals the
floor-based remainder used here. -/
def fmod (a b : ℚ) : ℚ :=
  a - b * (Rat.floor (a / b) : ℚ)

/-- The descending base list of `check_round_number`
(`src/anomaly/rules.rs:153`). -/
def roundThresholds : List ℚ :=
  [100000, 50000, 25000, 10000, 5000, 1000]

/-- Risk tiering of `check_round_number` (`src/anomaly/rules.rs:160-166`). -/
def roundRisk (threshold : ℚ) : ℚ :=
  if 100000 ≤ threshold then 40
  else if 10000 ≤ threshold then 30
  else 20

/-- The base-scanning loop of `check_round_number`
(`src/anomaly/rules.rs:155-184`): for each base `≤` the amount, test the
fractional distance and return on the first hit; otherwise continue with the
next (smaller) base. -/
def roundScan (t : StablecoinTransfer) (humanAmount tolerance : ℚ) :
    List ℚ → Option AnomalyRecord
  | [] => none
  | threshold :: rest =>
    if threshold ≤ humanAmount then
      let fraction := fmod humanAmount threshold / threshold
      if fraction < tolerance ∨ 1 - tolerance < fraction then
        some { chainId := t.chainId
               anomalyType := .roundNumber
               riskScore := roundRisk threshold
               address := none
               txHash := t.txHash
               logIndex := t.logIndex }
      else roundScan t humanAmount tolerance rest
    else roundScan t humanAmount tolerance rest

/-- `check_round_number` (`src/anomaly/rules.rs:141-187`). -/
def checkRoundNumber (t : StablecoinTransfer) (tolerance : ℚ) :
    Option AnomalyRecord :=
  let humanAmount := rawToHuman t.amount t.tokenDecimals
  if humanAmount < 1000 then none
  else roundScan t humanAmount tolerance roundThresholds

/-- An entity label (`src/entity/label_store.rs`, `EntityLabel`).  Only the
fields consulted by `is_sanctioned` are modelled; the remaining columns
(entity name, chain id, confidence) play no role in any claim. -/
structure EntityLabel where
  entityType : String
  labelSource : String
deriving DecidableEq, Repr

/-- The in-memory label store: `address → labels`
(`src/entity/label_store.rs`, `EntityLabelStore.labels`). -/
def EntityLabelStore := List (List Nat × List EntityLabel)

/-- `EntityLabelStore::is_sanctioned` (`src/entity/label_store.rs:56-63`). -/
def isSanctioned (store : EntityLabelStore) (address : List Nat) : Bool :=
  match store.lookup address with
  | some labels =>
    labels.any fun l => l.entityType == "sanctioned" || l.labelSource == "ofac_sdn"
  | none => false

/-- `check_sanctioned_counterparty` (`src/anomaly/rules.rs:107-138`). -/
def checkSanctionedCounterparty (t : StablecoinTransfer)
    (store : EntityLabelStore) : Option AnomalyRecord :=
  let fromSanctioned := isSanctioned store t.fromAddress
  let toSanctioned := isSanctioned store t.toAddress
  if fromSanctioned || toSanctioned then
    some { chainId := t.chainId
           anomalyType := .sanctionedCounterparty
           riskScore := 95
           address := some (if fromSanctioned then t.fromAddress else t.toAddress)
           txHash := t.txHash
           logIndex := t.logIndex }
  else none

/-- A first-seen wallet event (`src/wallet/first_seen.rs`,
`NewWalletEvent`). -/
structure NewWalletEvent where
  address : List Nat
  chainId : Int
  firstSeenAt : ℚ
  firstBlock : Int
  firstTxHash : List Nat
  direction : String
deriving DecidableEq, Repr

/-- `check_new_wallet_large_receive` (`src/anomaly/rules.rs:190-235`). -/
def checkNewWalletLargeReceive (t : StablecoinTransfer)
    (newWallets : List NewWalletEvent) (thresholdUsd : ℚ) :
    Option AnomalyRecord :=
  let humanAmount := rawToHuman t.amount t.tokenDecimals
  if humanAmount < thresholdUsd then none
  else if newWallets.any fun w =>
      w.address == t.toAddress && w.chainId == t.chainId && w.direction == "to" then
    some { chainId := t.chainId
           anomalyType := .newWalletLargeReceive
           riskScore := if thresholdUsd * 10 ≤ humanAmount then 80 else 60
           address := some t.toAddress
           txHash := t.txHash
           logIndex := t.logIndex }
  else none

/-- The `COUNT(*)` of `check_velocity` (`src/anomaly/rules.rs:64-75`): rows
of the `transfers` table with the same `from_address` and `chain_id` whose
`block_timestamp` is strictly greater than the current transfer's timestamp
minus `window_secs`.  Note the SQL has no upper bound on the timestamp. -/
def velocityCount (table : List StablecoinTransfer) (t : StablecoinTransfer)
    (windowSecs : ℚ) : Nat :=
  (table.filter fun r =>
    r.fromAddress == t.fromAddress && r.chainId == t.chainId &&
      decide (t.blockTimestamp - windowSecs < r.blockTimestamp)).length

/-- `check_velocity` (`src/anomaly/rules.rs:58-104`), with the database's
`transfers` table passed explicitly. -/
def checkVelocity (table : List StablecoinTransfer) (t : StablecoinTransfer)
    (windowSecs : Nat) (maxTransfers : Nat) : Option AnomalyRecord :=
  let count := velocityCount table t (windowSecs : ℚ)
  if maxTransfers < count then
    some { chainId := t.chainId
           anomalyType := .velocity
           riskScore := if maxTransfers * 5 < count then 70 else 50
           address := some t.fromAddress
           txHash := t.txHash
           logIndex := t.logIndex }
  else none

/-- The `COUNT(DISTINCT chain_id)` of `check_cross_chain_activity`
(`src/anomaly/rules.rs:244-253`). -/
def crossChainCount (table : List StablecoinTransfer) (t : StablecoinTransfer)
    (windowSecs : ℚ) : Nat :=
  ((table.filter fun r =>
      (r.fromAddress == t.fromAddress || r.toAddress == t.fromAddress) &&
        decide (t.blockTimestamp - windowSecs < r.blockTimestamp)).map
    (·.chainId)).dedup.length

/-- `check_cross_chain_activity` (`src/anomaly/rules.rs:238-278`). -/
def checkCrossChainActivity (table : List StablecoinTransfer)
    (t : StablecoinTransfer) (windowSecs : Nat) : Option AnomalyRecord :=
  let count := crossChainCount table t (windowSecs : ℚ)
  if 3 ≤ count then
    some { chainId := t.chainId
           anomalyType := .crossChainActivity
           riskScore := if 5 ≤ count then 50 else 30
           address := some t.fromAddress
           txHash := t.txHash
           logIndex := t.logIndex }
  else none

/-- `VelocityConfig` (`src/config.rs`). -/
structure VelocityConfig where
  windowSecs : Nat
  maxTransfers : Nat
deriving DecidableEq, Repr

/-- `RoundNumberConfig` (`src/config.rs`). -/
structure RoundNumberConfig where
  tolerance : ℚ
deriving DecidableEq, Repr

/-- `NewWalletConfig` (`src/config.rs`). -/
structure NewWalletConfig where
  thresholdUsd : ℚ
deriving DecidableEq, Repr

/-- `CrossChainConfig` (`src/config.rs`). -/
structure CrossChainConfig where
  windowSecs : Nat
deriving DecidableEq, Repr

/-- `AnomalyDetectionConfig` (`src/config.rs:151-164`). -/
structure AnomalyDetectionConfig where
  enabled : Bool
  largeTransferThresholds : List (String × ℚ)
  velocity : VelocityConfig
  roundNumber : RoundNumberConfig
  newWallet : NewWalletConfig
  crossChain : CrossChainConfig
deriving DecidableEq, Repr

/-- The per-transfer body of `AnomalyEngine::analyze_batch`
(`src/anomaly/engine.rs:36-93`): rules 1-6 in engine order, with rule 1
gated on a non-empty threshold map, rule 5 on a batch of at most 100
transfers and rule 6 on at most 50.  `table` is the database's `transfers`
table visible to the two SQL-backed rules; `batchLen` is the length of the
analysed batch. -/
def perTransferAnomalies (cfg : AnomalyDetectionConfig)
    (table : List StablecoinTransfer) (batchLen : Nat)
    (store : EntityLabelStore) (newWallets : List NewWalletEvent)
    (t : StablecoinTransfer) : List AnomalyRecord :=
  (if cfg.largeTransferThresholds.isEmpty then []
   else (checkLargeTransfer t cfg.largeTransferThresholds).toList) ++
  (checkSanctionedCounterparty t store).toList ++
  (checkRoundNumber t cfg.roundNumber.tolerance).toList ++
  (checkNewWalletLargeReceive t newWallets cfg.newWallet.thresholdUsd).toList ++
  (if batchLen ≤ 100 then
    (checkVelocity table t cfg.velocity.windowSecs cfg.velocity.maxTransfers).toList
   else []) ++
  (if batchLen ≤ 50 then
    (checkCrossChainActivity table t cfg.crossChain.windowSecs).toList
   else [])

/-- `AnomalyEngine::analyze_batch` (`src/anomaly/engine.rs:23-96`). -/
def analyzeBatch (cfg : AnomalyDetectionConfig)
    (table : List StablecoinTransfer) (transfers : List StablecoinTransfer)
    (store : EntityLabelStore) (newWallets : List NewWalletEvent) :
    List AnomalyRecord :=
  if cfg.enabled then
    transfers.flatMap (perTransferAnomalies cfg table transfers.length store newWallets)
  else []

/-- The natural key of the `transfers` table:
`(chain_id, tx_hash, log_index)`. -/
def transferKey (t : StablecoinTransfer) : Int × List Nat × Int :=
  (t.chainId, t.txHash, t.logIndex)

/-- The `transfers` table: rows paired with their serial `id`, plus the next
serial value. -/
structure TransfersTable where
  rows : List (Nat × StablecoinTransfer)
  nextId : Nat
deriving DecidableEq, Repr

/-- The empty `transfers` table. -/
def emptyTransfersTable : TransfersTable := { rows := [], nextId := 0 }

/-- Effect of one row of the multi-row
`INSERT ... ON CONFLICT (chain_id, tx_hash, log_index) DO NOTHING` of
`insert_transfers_batch` (`src/db/repository.rs:7-42`): keep the table
unchanged when a row with the same natural key exists, else append the row
under a fresh serial id. -/
def insertTransfer (tbl : TransfersTable) (t : StablecoinTransfer) :
    TransfersTable :=
  if tbl.rows.any (fun r => transferKey r.2 == transferKey t) then tbl
  else { rows := tbl.rows ++ [(tbl.nextId, t)], nextId := tbl.nextId + 1 }

/-- `insert_transfers_batch` (`src/db/repository.rs:7-42`).  The chunking at
1000 rows only splits the statement; the resulting table state is that of
inserting the rows in order, which is what the fold does. -/
def insertTransfersBatch (tbl : TransfersTable)
    (transfers : List StablecoinTransfer) : TransfersTable :=
  transfers.foldl insertTransfer tbl

/-- A row of the `anomalies` table as written by `persist_anomalies`
(`src/anomaly/engine.rs:122-135`).  The table has no `tx_hash` column; the
link to the transfer is the nullable `transfer_id`. -/
structure AnomalyRow where
  transferId : Option Nat
  chainId : Int
  anomalyType : AnomalyType
  riskScore : ℚ
  address : Option (List Nat)
deriving DecidableEq, Repr

/-- The `SELECT id FROM transfers WHERE chain_id = $1 AND tx_hash = $2 AND
log_index = $3` of `persist_anomalies` (`src/anomaly/engine.rs:108-116`). -/
def findTransferId (tbl : TransfersTable) (chainId : Int) (txHash : List Nat)
    (logIndex : Int) : Option Nat :=
  (tbl.rows.find? fun r =>
    r.2.chainId == chainId && r.2.txHash == txHash && r.2.logIndex == logIndex).map
    (·.1)

/-- Conflict test of the `ON CONFLICT (transfer_id, anomaly_type) DO
NOTHING` clause: PostgreSQL unique indexes treat NULLs as distinct, so only
rows whose `transfer_id` values are both non-null and equal conflict. -/
def anomalyConflict (a b : AnomalyRow) : Bool :=
  match a.transferId, b.transferId with
  | some i, some j => i == j && a.anomalyType == b.anomalyType
  | _, _ => false

/-- One `INSERT ... ON CONFLICT (transfer_id, anomaly_type) DO NOTHING` into
the `anomalies` table, returning the table and `rows_affected`. -/
def insertAnomaly (tbl : List AnomalyRow) (row : AnomalyRow) :
    List AnomalyRow × Nat :=
  if tbl.any (fun r => anomalyConflict r row) then (tbl, 0)
  else (tbl ++ [row], 1)

/-- The `anomalies` row built from a record by `persist_anomalies`
(`src/anomaly/engine.rs:107-133`): the transfer id is looked up by
`(chain_id, tx_hash, log_index)` and is NULL when no transfer matches. -/
def anomalyRowOf (transfers : TransfersTable) (a : AnomalyRecord) :
    AnomalyRow :=
  { transferId := findTransferId transfers a.chainId a.txHash a.logIndex
    chainId := a.chainId
    anomalyType := a.anomalyType
    riskScore := a.riskScore
    address := a.address }

/-- One iteration of the `persist_anomalies` loop: insert the row and add
`rows_affected` to the running count. -/
def persistStep (transfers : TransfersTable)
    (acc : List AnomalyRow × Nat) (a : AnomalyRecord) :
    List AnomalyRow × Nat :=
  let step := insertAnomaly acc.1 (anomalyRowOf transfers a)
  (step.1, acc.2 + step.2)

/-- `persist_anomalies` (`src/anomaly/engine.rs:100-141`): for each record
look up the transfer id and insert, counting affected rows. -/
def persistAnomalies (transfers : TransfersTable) (tbl : List AnomalyRow)
    (records : List AnomalyRecord) : List AnomalyRow × Nat :=
  records.foldl (persistStep transfers) (tbl, 0)

/-- The uniqueness invariant of the `anomalies` table: no two rows conflict
on the `(transfer_id, anomaly_type)` unique index (NULL ids never
conflict). -/
def anomaliesUnique (l : List AnomalyRow) : Prop :=
  l.Pairwise fun x y => anomalyConflict x y = false

/-- A wallet-graph edge row / pre-aggregated edge (`src/graph/tracker.rs`,
`AggregatedEdge` and the `wallet_graph_edges` table share this shape). -/
structure AggregatedEdge where
  sourceAddress : List Nat
  destAddress : List Nat
  chainId : Int
  transferCount : Int
  totalAmount : ℚ
  firstSeen : ℚ
  lastSeen : ℚ
deriving DecidableEq, Repr

/-- Key of an edge row: `(source_address, dest_address, chain_id)`. -/
def edgeKey (e : AggregatedEdge) : List Nat × List Nat × Int :=
  (e.sourceAddress, e.destAddress, e.chainId)

/-- Key of the edge contributed by a transfer. -/
def tEdgeKey (t : StablecoinTransfer) : List Nat × List Nat × Int :=
  (t.fromAddress, t.toAddress, t.chainId)

/-- The fresh aggregate for a transfer, after the `or_insert_with` default
(count 0, amount 0, both timestamps the transfer's) has been updated once
(`src/graph/tracker.rs:35-51`): count 1, the transfer's amount, both
timestamps the transfer's. -/
def newAggregate (t : StablecoinTransfer) : AggregatedEdge :=
  { sourceAddress := t.fromAddress
    destAddress := t.toAddress
    chainId := t.chainId
    transferCount := 1
    totalAmount := t.amount
    firstSeen := t.blockTimestamp
    lastSeen := t.blockTimestamp }

/-- The per-transfer update of an existing aggregate
(`src/graph/tracker.rs:44-51`). -/
def updateAggregate (e : AggregatedEdge) (t : StablecoinTransfer) :
    AggregatedEdge :=
  { e with
    transferCount := e.transferCount + 1
    totalAmount := e.totalAmount + t.amount
    firstSeen := if t.blockTimestamp < e.firstSeen then t.blockTimestamp else e.firstSeen
    lastSeen := if e.lastSeen < t.blockTimestamp then t.blockTimestamp else e.lastSeen }

/-- One step of the pre-aggregation `HashMap` of `update_edges`
(`src/graph/tracker.rs:32-52`), with the map as an association list keyed by
`(source, dest, chain_id)`: update the entry if present, else append a fresh
one. -/
def aggregateInsert : List AggregatedEdge → StablecoinTransfer → List AggregatedEdge
  | [], t => [newAggregate t]
  | e :: rest, t =>
    if edgeKey e = tEdgeKey t then updateAggregate e t :: rest
    else e :: aggregateInsert rest t

/-- The pre-aggregation of `update_edges`: group the batch by
`(source, dest, chain_id)`.  The `HashMap::into_values` iteration order is
unspecified in Rust; first-insertion order is used here. -/
def aggregateEdges (transfers : List StablecoinTransfer) : List AggregatedEdge :=
  transfers.foldl aggregateInsert []

/-- The `ON CONFLICT (source_address, dest_address, chain_id) DO UPDATE`
upsert of one aggregated edge (`src/graph/tracker.rs:58-77`): on conflict
add `transfer_count` and `total_amount`, take the greatest `last_seen`, and
leave `first_seen` untouched (it is absent from the `SET` list); otherwise
insert the row.  The unique index guarantees at most one matching row, so
updating the first match is exact. -/
def upsertEdge : List AggregatedEdge → AggregatedEdge → List AggregatedEdge
  | [], e => [e]
  | r :: rest, e =>
    if edgeKey r = edgeKey e then
      { r with
        transferCount := r.transferCount + e.transferCount
        totalAmount := r.totalAmount + e.totalAmount
        lastSeen := max r.lastSeen e.lastSeen } :: rest
    else r :: upsertEdge rest e

/-- `update_edges` (`src/graph/tracker.rs:23-84`): pre-aggregate, then
upsert each aggregated edge.  The chunking at 500 rows only splits the
statements; the final table state is the sequential fold. -/
def updateEdges (tbl : List AggregatedEdge)
    (transfers : List StablecoinTransfer) : List AggregatedEdge :=
  (aggregateEdges transfers).foldl upsertEdge tbl

/-- A row of the `block_hashes` table (`src/db/repository.rs:82-103`). -/
structure BlockHashRow where
  chainId : Int
  blockNumber : Int
  blockHash : List Nat
  parentHash : List Nat
deriving DecidableEq, Repr

/-- A row of the `defi_events` table, reduced to the columns the reorg
claims touch.  Modelled from the spec: `insert_defi_events_batch` and
`delete_defi_events_from_block` are called from `src/indexer/chain.rs` but
their repository definitions are not under `src/`; spec §4.3 specifies
`delete-defi-events-at-or-above(chain, block)` keyed like transfers. -/
structure DefiEventRow where
  chainId : Int
  blockNumber : Int
deriving DecidableEq, Repr

/-- A row of the `indexer_state` checkpoint table
(`src/db/repository.rs:60-79`): one row per chain. -/
structure CheckpointRow where
  chainId : Int
  lastIndexedBlock : Int
  lastBlockHash : Option (List Nat)
deriving DecidableEq, Repr

/-- The database state the chain indexer reads and writes. -/
structure IndexerDb where
  transfers : List StablecoinTransfer
  defiEvents : List DefiEventRow
  blockHashes : List BlockHashRow
  indexerState : List CheckpointRow
deriving DecidableEq, Repr

/-- `get_block_hash` (`src/db/repository.rs:106-120`). -/
def getBlockHash (db : IndexerDb) (chainId blockNumber : Int) :
    Option (List Nat) :=
  (db.blockHashes.find? fun r =>
    r.chainId == chainId && r.blockNumber == blockNumber).map (·.blockHash)

/-- `delete_transfers_from_block` (`src/db/repository.rs:123-137`):
`DELETE FROM transfers WHERE chain_id = $1 AND block_number >= $2`. -/
def deleteTransfersFromBlock (db : IndexerDb) (chainId fromBlock : Int) :
    IndexerDb :=
  { db with
    transfers := db.transfers.filter fun t =>
      !(t.chainId == chainId && decide (fromBlock ≤ t.blockNumber)) }

/-- Modelled from the spec (§4.3 `delete-defi-events-at-or-above`): the
repository definition of `delete_defi_events_from_block` is not under
`src/`; like the transfer variant it deletes the chain's rows at or above
the block. -/
def deleteDefiEventsFromBlock (db : IndexerDb) (chainId fromBlock : Int) :
    IndexerDb :=
  { db with
    defiEvents := db.defiEvents.filter fun e =>
      !(e.chainId == chainId && decide (fromBlock ≤ e.blockNumber)) }

/-- `delete_block_hashes_from` (`src/db/repository.rs:140-154`). -/
def deleteBlockHashesFrom (db : IndexerDb) (chainId fromBlock : Int) :
    IndexerDb :=
  { db with
    blockHashes := db.blockHashes.filter fun r =>
      !(r.chainId == chainId && decide (fromBlock ≤ r.blockNumber)) }

/-- `find_fork_point` (`src/indexer/chain.rs:576-597`): walk the block
numbers from `block_number - 1` down to
`earliest = block_number - max_depth` (0-clamped); at the first number that
still has a stored hash return that number plus one, and return `earliest`
when none has one. -/
def findForkPoint (db : IndexerDb) (chainId : Int)
    (blockNumber maxDepth : Nat) : Nat :=
  let earliest := if maxDepth < blockNumber then blockNumber - maxDepth else 0
  match (List.range' earliest (blockNumber - earliest)).reverse.find?
      (fun n => (getBlockHash db chainId (Int.ofNat n)).isSome) with
  | some n => n + 1
  | none => earliest

/-- The reorg-detection branch of `process_new_block`
(`src/indexer/chain.rs:410-441`): when the stored hash of block
`block_number - 1` exists and differs from the incoming header's parent
hash, compute the fork point, delete transfers, defi events and block
hashes from it, and return — the checkpoint is not touched.  The result is
`some (db, fork_block)` when the reorg branch ran and `none` when the
function would continue into the normal path (not modelled here, as no
claim depends on it). -/
def processNewBlockReorgCheck (db : IndexerDb) (chainId : Int)
    (blockNumber : Nat) (parentHash : List Nat) (maxReorgDepth : Nat) :
    Option (IndexerDb × Nat) :=
  if 0 < blockNumber then
    match getBlockHash db chainId ((blockNumber : Int) - 1) with
    | some stored =>
      if stored ≠ parentHash then
        let forkBlock := findForkPoint db chainId blockNumber maxReorgDepth
        let db1 := deleteTransfersFromBlock db chainId (forkBlock : Int)
        let db2 := deleteDefiEventsFromBlock db1 chainId (forkBlock : Int)
        let db3 := deleteBlockHashesFrom db2 chainId (forkBlock : Int)
        some (db3, forkBlock)
      else none
    | none => none
  else none

/-- The loop-plus-final-attempt of `retry_rpc`
(`src/indexer/chain.rs:601-629`), with the successive results of the
`FnMut` closure given as a function of the attempt index.  `remaining`
counts the loop iterations left (`max_retries = 5`); when it reaches zero
the final attempt maps a failure into the wrapping error message.  The list
accumulates the sleeps performed between attempts (milliseconds). -/
def retryLoop (f : Nat → Except String α) :
    Nat → Nat → Nat → List Nat → Except String α × List Nat
  | 0, attempt, _, slept =>
    match f attempt with
    | .ok v => (.ok v, slept)
    | .error e => (.error ("RPC call failed after 5 retries: " ++ e), slept)
  | remaining + 1, attempt, delay, slept =>
    match f attempt with
    | .ok v => (.ok v, slept)
    | .error _ => retryLoop f remaining (attempt + 1) (min (delay * 2) 30000) (slept ++ [delay])

/-- `retry_rpc` (`src/indexer/chain.rs:601-629`): 5 loop attempts starting
with a 500 ms delay that doubles up to a 30 s cap, then a final attempt
whose error is propagated. -/
def retryRpc (f : Nat → Except String α) : Except String α × List Nat :=
  retryLoop f 5 0 500 []

/-- The delays `retry_rpc` sleeps when every loop attempt fails. -/
def backoffDelays : List Nat := [500, 1000, 2000, 4000, 8000]

/-- The keccak-256 signature hash of `Transfer(address,address,uint256)`
(`Transfer::SIGNATURE_HASH` generated by the `sol!` macro in
`src/indexer/decoder.rs:13-15`), as a 256-bit value. -/
def transferSignatureHashValue : Nat :=
  0xddf252ad1be2c89b69c2b068fc378daa952ba7f163c4a11628f55a4df523b3ef

/-- The signature hash as its 32 big-endian bytes. -/
def transferSignatureHash : List Nat :=
  (List.range 32).reverse.map fun i => transferSignatureHashValue / 256 ^ i % 256

/-- A raw EVM log as the decoder consumes it (`alloy::rpc::types::Log`):
the emitting address, the topic words (32 bytes each), the data payload,
and the optional transaction hash and log index. -/
structure RawLog where
  address : List Nat
  topics : List (List Nat)
  data : List Nat
  transactionHash : Option (List Nat)
  logIndex : Option Nat
deriving DecidableEq, Repr

/-- A decoded transfer (`src/indexer/decoder.rs`, `DecodedTransfer`). -/
structure DecodedTransfer where
  fromAddr : List Nat
  toAddr : List Nat
  amount : ℚ
  tokenAddress : List Nat
  tokenSymbol : String
  tokenDecimals : Int
  logIndex : Nat
  txHash : List Nat
deriving DecidableEq, Repr

/-- Big-endian bytes to a natural number (`U256::from_be_slice`). -/
def beBytesToNat (l : List Nat) : Nat :=
  l.foldl (fun acc b => acc * 256 + b) 0

/-- `Address::from_word`: the low 20 bytes of a 32-byte word. -/
def wordToAddress (w : List Nat) : List Nat := w.drop 12

/-- `decode_transfer_log` (`src/indexer/decoder.rs:36-82`).  The code's two
early returns (`topics.is_empty() || topics[0] != SIGNATURE_HASH`, then
`topics.len() != 3`) are combined into the single three-topic pattern
match, which accepts exactly the same logs.  The `BigDecimal` parse of the
`U256` decimal string never fails, so `amount` is the exact value. -/
def decodeTransferLog (log : RawLog)
    (watchedTokens : List (List Nat × TokenMeta)) : Option DecodedTransfer :=
  match watchedTokens.lookup log.address with
  | none => none
  | some tokenMeta =>
    match log.topics with
    | [t0, t1, t2] =>
      if t0 ≠ transferSignatureHash then none
      else if log.data.length < 32 then none
      else
        some { fromAddr := wordToAddress t1
               toAddr := wordToAddress t2
               amount := (beBytesToNat (log.data.take 32) : ℚ)
               tokenAddress := log.address
               tokenSymbol := tokenMeta.symbol
               tokenDecimals := tokenMeta.decimals
               logIndex := log.logIndex.getD 0
               txHash := log.transactionHash.getD (List.replicate 32 0) }
    | _ => none

/-! ### Concrete fixtures used by scenario evaluations -/

/-- A plain USDC transfer all scenario fixtures are variations of. -/
def baseTransfer : StablecoinTransfer :=
  { chainId := 1
    blockNumber := 1
    blockHash := []
    txHash := [1]
    logIndex := 0
    tokenAddress := []
    fromAddress := [1]
    toAddress := [2]
    amount := 0
    tokenSymbol := "USDC"
    tokenDecimals := 0
    blockTimestamp := 0 }

/-- A transfer of 110,000 units of a 0-decimals token. -/
def transfer110k : StablecoinTransfer := { baseTransfer with amount := 110000 }

/-- A 10,000 USDC transfer: raw `10000000000`, 6 decimals. -/
def usdc10k : StablecoinTransfer :=
  { baseTransfer with amount := 10000000000, tokenDecimals := 6 }

/-- A 500,000 USDC transfer: raw `500000000000`, 6 decimals. -/
def usdc500k : StablecoinTransfer :=
  { baseTransfer with amount := 500000000000, tokenDecimals := 6 }

/-- A transfer of 200,000 units of a 0-decimals token. -/
def transfer200k : StablecoinTransfer := { baseTransfer with amount := 200000 }

/-- An anomaly-detection config with defaults and an empty threshold map
(`AnomalyDetectionConfig::default` has `large_transfer_thresholds:
HashMap::new()`). -/
def cfgEmptyThresholds : AnomalyDetectionConfig :=
  { enabled := true
    largeTransferThresholds := []
    velocity := { windowSecs := 3600, maxTransfers := 10 }
    roundNumber := { tolerance := 1/100 }
    newWallet := { thresholdUsd := 10000 }
    crossChain := { windowSecs := 1800 } }

/-- The same config with the threshold map `{default: 100000}`. -/
def cfgDefaultThreshold : AnomalyDetectionConfig :=
  { cfgEmptyThresholds with largeTransferThresholds := [("default", 100000)] }

/-- The transfer the velocity scenarios analyse: sender `[1]`, chain 1,
timestamp 1000 s. -/
def velTransfer : StablecoinTransfer := { baseTransfer with blockTimestamp := 1000 }

/-- A stored transfer row from the same sender at the given timestamp. -/
def velRow (ts : ℚ) : StablecoinTransfer := { baseTransfer with blockTimestamp := ts }

/-- Ten same-sender rows inside the window plus one at timestamp 5000,
after the analysed transfer's timestamp 1000. -/
def velTableFuture : List StablecoinTransfer :=
  List.replicate 10 (velRow 500) ++ [velRow 5000]

/-- Twelve same-sender rows inside the window. -/
def velTable12 : List StablecoinTransfer := List.replicate 12 (velRow 500)

/-- Sixty same-sender rows inside the window. -/
def velTable60 : List StablecoinTransfer := List.replicate 60 (velRow 500)

/-- A transfer contributing the edge `([1], [2], 1)` with amount 5 at
timestamp 0. -/
def edgeTransfer : StablecoinTransfer := { baseTransfer with amount := 5 }

/-- A transfer on the same edge at the earlier timestamp 50 with amount 7. -/
def edgeTransferEarly : StablecoinTransfer :=
  { baseTransfer with amount := 7, blockTimestamp := 50 }

/-- An existing edge row for `([1], [2], 1)`: count 3, total 30, first and
last seen at timestamp 100. -/
def existingEdge : AggregatedEdge :=
  { sourceAddress := [1]
    destAddress := [2]
    chainId := 1
    transferCount := 3
    totalAmount := 30
    firstSeen := 100
    lastSeen := 100 }

/-- A transfer stored at block 100 of chain 1. -/
def transferAtBlock100 : StablecoinTransfer :=
  { baseTransfer with blockNumber := 100, blockHash := [0xAA] }

/-- The reorg scenario's database: block 100 stored with hash `0xAA`, one
transfer at block 100, checkpoint at 100. -/
def reorgDb : IndexerDb :=
  { transfers := [transferAtBlock100]
    defiEvents := []
    blockHashes := [{ chainId := 1, blockNumber := 100, blockHash := [0xAA], parentHash := [0x99] }]
    indexerState := [{ chainId := 1, lastIndexedBlock := 100, lastBlockHash := some [0xAA] }] }

/-- The watched-token address of the decoder scenario (20 bytes). -/
def usdcAddress : List Nat := List.replicate 19 0 ++ [0xA0]

/-- The decoder scenario's watched-token map. -/
def exWatched : List (List Nat × TokenMeta) :=
  [(usdcAddress, { symbol := "USDC", decimals := 6 })]

/-- A 32-byte topic word whose low 20 bytes are the address `0…0b`. -/
def topicWord (b : Nat) : List Nat := List.replicate 31 0 ++ [b]

/-- The decoder scenario's log: watched address, Transfer signature, two
address topics, and 32 data bytes holding `2000000` big-endian. -/
def exLog : RawLog :=
  { address := usdcAddress
    topics := [transferSignatureHash, topicWord 1, topicWord 2]
    data := List.replicate 29 0 ++ [0x1E, 0x84, 0x80]
    transactionHash := some (List.replicate 32 5)
    logIndex := some 7 }

/-! ### Derived notions used to state the theorems -/

/-- The record `check_round_number` emits when it fires on base
`threshold`. -/
def roundRecord (t : StablecoinTransfer) (threshold : ℚ) : AnomalyRecord :=
  { chainId := t.chainId
    anomalyType := .roundNumber
    riskScore := roundRisk threshold
    address := none
    txHash := t.txHash
    logIndex := t.logIndex }

/-- The combined firing test of one iteration of the round-number loop. -/
def roundHit (humanAmount tolerance th : ℚ) : Bool :=
  decide (th ≤ humanAmount) &&
    (decide (fmod humanAmount th / th < tolerance) ||
     decide (1 - tolerance < fmod humanAmount th / th))

/-- Whether the table already holds a row with the transfer's natural key
(the guard of `insertTransfer`). -/
def hasTransferKey (tbl : TransfersTable) (t : StablecoinTransfer) : Bool :=
  tbl.rows.any fun r => transferKey r.2 == transferKey t

/-- Sum of `transfer_count` over the rows with the given edge key. -/
def edgeCountAt (tbl : List AggregatedEdge) (k : List Nat × List Nat × Int) :
    Int :=
  ((tbl.filter fun e => edgeKey e == k).map (·.transferCount)).sum

/-- Sum of `total_amount` over the rows with the given edge key. -/
def edgeTotalAt (tbl : List AggregatedEdge) (k : List Nat × List Nat × Int) :
    ℚ :=
  ((tbl.filter fun e => edgeKey e == k).map (·.totalAmount)).sum

/-- Number of batch transfers contributing to the given edge key. -/
def batchCountAt (batch : List StablecoinTransfer)
    (k : List Nat × List Nat × Int) : Int :=
  ((batch.filter fun t => tEdgeKey t == k).length : Int)

/-- Sum of the batch amounts contributing to the given edge key. -/
def batchAmountAt (batch : List StablecoinTransfer)
    (k : List Nat × List Nat × Int) : ℚ :=
  (((batch.filter fun t => tEdgeKey t == k).map (·.amount)).sum : ℚ)

/-- The first row with the given edge key, if any. -/
def rowAt (tbl : List AggregatedEdge) (k : List Nat × List Nat × Int) :
    Option AggregatedEdge :=
  tbl.find? fun e => edgeKey e == k

/-- The batch's aggregated entry for the given edge key, if any. -/
def aggAt (batch : List StablecoinTransfer) (k : List Nat × List Nat × Int) :
    Option AggregatedEdge :=
  rowAt (aggregateEdges batch) k

/-- The conflict update of `upsertEdge`: counts and totals add, `last_seen`
takes the maximum, `first_seen` is left as the existing row's value. -/
def mergeEdge (r e : AggregatedEdge) : AggregatedEdge :=
  { r with
    transferCount := r.transferCount + e.transferCount
    totalAmount := r.totalAmount + e.totalAmount
    lastSeen := max r.lastSeen e.lastSeen }

/-- One step of the per-key aggregation: start a fresh aggregate or update
the existing one. -/
def aggStep (o : Option AggregatedEdge) (t : StablecoinTransfer) :
    Option AggregatedEdge :=
  some (match o with
        | none => newAggregate t
        | some e => updateAggregate e t)

/-- Minimum of a list of rationals, `none` on the empty list. -/
def qListMin (l : List ℚ) : Option ℚ :=
  l.foldl (fun o x => some (match o with | none => x | some m => min m x)) none

/-- Maximum of a list of rationals, `none` on the empty list. -/
def qListMax (l : List ℚ) : Option ℚ :=
  l.foldl (fun o x => some (match o with | none => x | some m => max m x)) none

/-! ## Theorems -/

theorem pow10_ge_of_twenty_le (e : Nat) (h : 20 ≤ e) : 2 ^ 64 ≤ 10 ^ e :=
  le_trans (by norm_num) (Nat.pow_le_pow_right (by norm_num) h)

/-- C10: the divisor of `raw_to_human` is `10` raised to
`decimals as u32` in `u64` arithmetic, so the computation fits in 64 bits —
is total and panic-free — exactly when `0 ≤ decimals ≤ 19`; for any `i16`
value that is negative or at least 20 the power overflows `u64`. -/
theorem raw_to_human_divisor_panic_free_iff (d : Int)
    (hlo : -32768 ≤ d) (hhi : d ≤ 32767) :
    10 ^ castI16ToU32 d < 2 ^ 64 ↔ 0 ≤ d ∧ d ≤ 19 := by
  by_cases hd : 0 ≤ d
  · have he : castI16ToU32 d = d.toNat := by unfold castI16ToU32; omega
    rw [he]
    constructor
    · intro hlt
      refine ⟨hd, ?_⟩
      by_contra hgt
      push_neg at hgt
      have h20 : (20 : Nat) ≤ d.toNat := by omega
      have := pow10_ge_of_twenty_le _ h20
      omega
    · rintro ⟨-, h19⟩
      have h19n : d.toNat ≤ 19 := by omega
      calc 10 ^ d.toNat ≤ 10 ^ 19 := Nat.pow_le_pow_right (by norm_num) h19n
        _ < 2 ^ 64 := by norm_num
  · have he : (20 : Nat) ≤ castI16ToU32 d := by unfold castI16ToU32; omega
    have h64 := pow10_ge_of_twenty_le _ he
    constructor
    · intro hlt
      omega
    · rintro ⟨h0, -⟩
      exact absurd h0 hd

/-- Witness: 6 decimals (USDC) satisfy the precondition and the divisor
fits, 20 does not. -/
theorem raw_to_human_divisor_panic_free_iff_witness :
    10 ^ castI16ToU32 6 < 2 ^ 64 ∧ ¬ 10 ^ castI16ToU32 20 < 2 ^ 64 :=
  ⟨(raw_to_human_divisor_panic_free_iff 6 (by decide) (by decide)).mpr
      (by decide),
   fun h =>
     by simpa using ((raw_to_human_divisor_panic_free_iff 20 (by decide)
       (by decide)).mp h).2⟩

theorem roundScan_eq_find (t : StablecoinTransfer)
    (humanAmount tolerance : ℚ) (l : List ℚ) :
    roundScan t humanAmount tolerance l =
      (l.find? (roundHit humanAmount tolerance)).map (roundRecord t) := by
  induction l with
  | nil => rfl
  | cons th rest ih =>
    by_cases h1 : th ≤ humanAmount
    · by_cases h2 : fmod humanAmount th / th < tolerance ∨
          1 - tolerance < fmod humanAmount th / th
      · have hh : roundHit humanAmount tolerance th = true := by
          simpa [roundHit, h1] using h2
        simp [roundScan, h1, h2, List.find?_cons, hh, roundRecord]
      · have hh : roundHit humanAmount tolerance th = false := by
          push_neg at h2
          simp [roundHit, h1]
          exact ⟨h2.1, h2.2⟩
        simp [roundScan, h1, h2, List.find?_cons, hh, ih]
    · have hh : roundHit humanAmount tolerance th = false := by
        simp [roundHit, h1]
      simp [roundScan, h1, List.find?_cons, hh, ih]

/-- Counterexample to C4: for an amount of 110,000 at tolerance 0.01 the
first base `≤` the amount is 100,000 and its fraction 0.1 is outside
tolerance, so under the claim no anomaly should fire — yet the rule walks on
to base 10,000 and fires with risk 30. -/
theorem round_number_not_first_base_only :
    rawToHuman transfer110k.amount transfer110k.tokenDecimals = 110000 ∧
    roundThresholds.find? (fun th => decide (th ≤ (110000 : ℚ))) = some 100000 ∧
    roundHit 110000 (1/100) 100000 = false ∧
    (checkRoundNumber transfer110k (1/100)).map
      (fun r => (r.anomalyType, r.riskScore)) = some (.roundNumber, 30) := by
  refine ⟨by decide, by decide, by decide, by decide⟩

/-- C4 (amended): for an amount of at least 1,000 the round-number rule
walks the whole descending base list and fires on the first base that is
both `≤` the amount and whose fraction `(amount mod base)/base` lies within
`tolerance` of 0 or 1 (not merely the first base `≤` the amount), with risk
40 for base 100,000, 30 for bases 10,000 and up, 20 below; amounts under
1,000 never fire; a 10,000 USDC transfer at tolerance 0.01 yields one
`round_number` anomaly with risk 30. -/
theorem round_number_scan_all_bases :
    (∀ (t : StablecoinTransfer) (tolerance : ℚ),
      checkRoundNumber t tolerance =
        (if rawToHuman t.amount t.tokenDecimals < 1000 then none
         else (roundThresholds.find?
            (roundHit (rawToHuman t.amount t.tokenDecimals) tolerance)).map
          (roundRecord t))) ∧
    (checkRoundNumber usdc10k (1/100)).map
      (fun r => (r.anomalyType, r.riskScore)) = some (.roundNumber, 30) := by
  constructor
  · intro t tolerance
    rw [checkRoundNumber, roundScan_eq_find]
  · decide

/-- C1: the scenario of the claim, evaluated on the code.  Block 100 is
stored with hash `0xAA`, one transfer sits at block 100, the checkpoint is
100; the node reports block 101 with parent hash `0xBB`.  The reorg branch
runs, but `find_fork_point` walks back from block 100, immediately finds a
stored hash there and returns 101 — so the rollback deletes nothing: the
database is returned unchanged, the block-100 transfer and hash rows
survive, and the checkpoint stays at 100 instead of the claimed state where
all rows `≥ 100` are deleted and the checkpoint is 99. -/
theorem reorg_rollback_misses_stale_block :
    processNewBlockReorgCheck reorgDb 1 101 [0xBB] 64 = some (reorgDb, 101) ∧
    findForkPoint reorgDb 1 101 64 = 101 ∧
    reorgDb.transfers.any (fun t => decide (100 ≤ t.blockNumber)) = true ∧
    reorgDb.blockHashes.any (fun r => decide (100 ≤ r.blockNumber)) = true ∧
    reorgDb.indexerState.map (·.lastIndexedBlock) = [100] := by
  refine ⟨by decide, by decide, by decide, by decide, by decide⟩

theorem retryLoop_congr {α : Type} (f g : Nat → Except String α) :
    ∀ (remaining attempt delay : Nat) (slept : List Nat),
      (∀ k, k ≤ attempt + remaining → f k = g k) →
      retryLoop f remaining attempt delay slept =
        retryLoop g remaining attempt delay slept := by
  intro remaining
  induction remaining with
  | zero =>
    intro attempt delay slept h
    simp only [retryLoop, h attempt (by omega)]
  | succ n ih =>
    intro attempt delay slept h
    simp only [retryLoop, h attempt (by omega)]
    cases g attempt with
    | ok v => rfl
    | error e =>
      show retryLoop f n (attempt + 1) (min (delay * 2) 30000) (slept ++ [delay]) =
        retryLoop g n (attempt + 1) (min (delay * 2) 30000) (slept ++ [delay])
      exact ih (attempt + 1) (min (delay * 2) 30000) (slept ++ [delay])
        (fun k hk => h k (by omega))

/-- C9: the retry wrapper's behaviour is determined by the results of the
first six invocations (one initial call plus up to five retries); a first
success at attempt `k ≤ 5` is returned after sleeping the first `k` backoff
delays (500 ms doubling, all capped at 30 s); and when all six attempts
fail, the final attempt's error is the one propagated, wrapped in the
`RPC call failed after 5 retries` message, after all five sleeps. -/
theorem retry_rpc_policy {α : Type} (f g : Nat → Except String α)
    (k : Nat) (v : α) (e5 : String) :
    ((∀ j, j ≤ 5 → f j = g j) → retryRpc f = retryRpc g) ∧
    (k ≤ 5 → f k = .ok v → (∀ j, j < k → ∃ e, f j = .error e) →
      retryRpc f = (.ok v, backoffDelays.take k)) ∧
    ((∀ j, j ≤ 5 → ∃ e, f j = .error e) → f 5 = .error e5 →
      retryRpc f = (.error ("RPC call failed after 5 retries: " ++ e5),
        backoffDelays)) ∧
    (∀ d, d ∈ backoffDelays → 500 ≤ d ∧ d ≤ 30000) := by
  refine ⟨?_, ?_, ?_, ?_⟩
  · intro h
    exact retryLoop_congr f g 5 0 500 [] fun j hj => h j (by omega)
  · intro hk hok hfail
    interval_cases k
    · simp [retryRpc, retryLoop, hok, backoffDelays]
    · obtain ⟨e0, h0⟩ := hfail 0 (by omega)
      simp [retryRpc, retryLoop, h0, hok, backoffDelays]
    · obtain ⟨e0, h0⟩ := hfail 0 (by omega)
      obtain ⟨e1, h1⟩ := hfail 1 (by omega)
      simp [retryRpc, retryLoop, h0, h1, hok, backoffDelays]
    · obtain ⟨e0, h0⟩ := hfail 0 (by omega)
      obtain ⟨e1, h1⟩ := hfail 1 (by omega)
      obtain ⟨e2, h2⟩ := hfail 2 (by omega)
      simp [retryRpc, retryLoop, h0, h1, h2, hok, backoffDelays]
    · obtain ⟨e0, h0⟩ := hfail 0 (by omega)
      obtain ⟨e1, h1⟩ := hfail 1 (by omega)
      obtain ⟨e2, h2⟩ := hfail 2 (by omega)
      obtain ⟨e3, h3⟩ := hfail 3 (by omega)
      simp [retryRpc, retryLoop, h0, h1, h2, h3, hok, backoffDelays]
    · obtain ⟨e0, h0⟩ := hfail 0 (by omega)
      obtain ⟨e1, h1⟩ := hfail 1 (by omega)
      obtain ⟨e2, h2⟩ := hfail 2 (by omega)
      obtain ⟨e3, h3⟩ := hfail 3 (by omega)
      obtain ⟨e4, h4⟩ := hfail 4 (by omega)
      simp [retryRpc, retryLoop, h0, h1, h2, h3, h4, hok, backoffDelays]
  · intro hfail h5
    obtain ⟨e0, h0⟩ := hfail 0 (by omega)
    obtain ⟨e1, h1⟩ := hfail 1 (by omega)
    obtain ⟨e2, h2⟩ := hfail 2 (by omega)
    obtain ⟨e3, h3⟩ := hfail 3 (by omega)
    obtain ⟨e4, h4⟩ := hfail 4 (by omega)
    simp [retryRpc, retryLoop, h0, h1, h2, h3, h4, h5, backoffDelays]
  · intro d hd
    fin_cases hd <;> omega

/-- Witness: a call sequence failing twice then succeeding returns the
success after sleeping 500 ms and 1000 ms. -/
theorem retry_rpc_policy_witness :
    retryRpc (fun j => if j == 2 then Except.ok 42 else .error "x") =
      (.ok 42, backoffDelays.take 2) := by
  refine (retry_rpc_policy (fun j => if j == 2 then Except.ok 42 else .error "x")
    (fun j => if j == 2 then Except.ok 42 else .error "x") 2 42 "x").2.1
    (by omega) rfl ?_
  intro j hj
  exact ⟨"x", by interval_cases j <;> rfl⟩

/-- C7: `decode_transfer_log` yields a decoded transfer exactly when the
emitting address is watched, topic 0 is the `Transfer(address,address,uint256)`
signature, exactly three topics are present, and the data payload holds at
least 32 bytes; the decoded fields are then the low 20 bytes of topics 1 and
2, the big-endian value of the first 32 data bytes kept exactly, and the
watched entry's symbol and decimals.  Every other log decodes to `none`;
the function is total, so no log ever produces an error. -/
theorem decode_transfer_log_iff (log : RawLog)
    (watched : List (List Nat × TokenMeta)) :
    ((decodeTransferLog log watched).isSome ↔
      (watched.lookup log.address).isSome ∧
      log.topics.head? = some transferSignatureHash ∧
      log.topics.length = 3 ∧ 32 ≤ log.data.length) ∧
    (∀ d, decodeTransferLog log watched = some d →
      ∃ meta t1 t2, watched.lookup log.address = some meta ∧
        log.topics = [transferSignatureHash, t1, t2] ∧
        d.fromAddr = t1.drop 12 ∧ d.toAddr = t2.drop 12 ∧
        d.amount = (beBytesToNat (log.data.take 32) : ℚ) ∧
        d.tokenSymbol = meta.symbol ∧ d.tokenDecimals = meta.decimals ∧
        d.tokenAddress = log.address ∧ d.logIndex = log.logIndex.getD 0 ∧
        d.txHash = log.transactionHash.getD (List.replicate 32 0)) := by
  cases hw : watched.lookup log.address with
  | none => simp [decodeTransferLog, hw]
  | some meta =>
    rcases htp : log.topics with - | ⟨t0, - | ⟨t1, - | ⟨t2, - | rest⟩⟩⟩
    · simp [decodeTransferLog, hw, htp]
    · simp [decodeTransferLog, hw, htp]
    · simp [decodeTransferLog, hw, htp]
    · by_cases ht0 : t0 = transferSignatureHash
      · by_cases hdata : log.data.length < 32
        · subst ht0
          simp [decodeTransferLog, hw, htp, hdata]
        · subst ht0
          constructor
          · simp [decodeTransferLog, hw, htp, hdata]
            omega
          · intro d hd
            simp [decodeTransferLog, hw, htp, hdata] at hd
            refine ⟨meta, t1, t2, rfl, rfl, ?_⟩
            rw [← hd]
            simp [wordToAddress]
      · simp [decodeTransferLog, hw, htp, ht0]
    · simp [decodeTransferLog, hw, htp]

/-- Witness: the scenario log (watched USDC address, Transfer signature,
topics `0…01`/`0…02`, data `2000000`) satisfies all four conditions and
decodes. -/
theorem decode_transfer_log_iff_witness :
    (decodeTransferLog exLog exWatched).isSome = true ∧
    (decodeTransferLog exLog exWatched).map (·.amount) = some 2000000 := by
  constructor
  · exact (decode_transfer_log_iff exLog exWatched).1.mpr (by decide)
  · decide

theorem insertTransfer_of_hasKey (tbl : TransfersTable)
    (t : StablecoinTransfer) (h : hasTransferKey tbl t = true) :
    insertTransfer tbl t = tbl := by
  unfold hasTransferKey at h
  simp [insertTransfer, h]

theorem hasKey_insertTransfer_self (tbl : TransfersTable)
    (t : StablecoinTransfer) : hasTransferKey (insertTransfer tbl t) t = true := by
  unfold insertTransfer hasTransferKey
  by_cases h : tbl.rows.any (fun r => transferKey r.2 == transferKey t) = true
  · simpa [h] using h
  · simp [h, List.any_append]

theorem hasKey_insertTransfer_mono (tbl : TransfersTable)
    (t s : StablecoinTransfer) (h : hasTransferKey tbl s = true) :
    hasTransferKey (insertTransfer tbl t) s = true := by
  unfold hasTransferKey at h
  unfold insertTransfer hasTransferKey
  by_cases hg : tbl.rows.any (fun r => transferKey r.2 == transferKey t) = true
  · simpa [hg] using h
  · simp [hg, List.any_append, h]

theorem hasKey_batch_mono (batch : List StablecoinTransfer) :
    ∀ (tbl : TransfersTable) (s : StablecoinTransfer),
      hasTransferKey tbl s = true →
      hasTransferKey (insertTransfersBatch tbl batch) s = true := by
  induction batch with
  | nil => intro tbl s h; exact h
  | cons a rest ih =>
    intro tbl s h
    exact ih (insertTransfer tbl a) s (hasKey_insertTransfer_mono tbl a s h)

theorem hasKey_after_batch (batch : List StablecoinTransfer) :
    ∀ (tbl : TransfersTable) (t : StablecoinTransfer), t ∈ batch →
      hasTransferKey (insertTransfersBatch tbl batch) t = true := by
  induction batch with
  | nil => intro tbl t h; cases h
  | cons a rest ih =>
    intro tbl t h
    rcases List.mem_cons.mp h with rfl | hmem
    · exact hasKey_batch_mono rest (insertTransfer tbl t) t
        (hasKey_insertTransfer_self tbl t)
    · exact ih (insertTransfer tbl a) t hmem

theorem insertTransfersBatch_noop (batch : List StablecoinTransfer) :
    ∀ tbl : TransfersTable, (∀ t ∈ batch, hasTransferKey tbl t = true) →
      insertTransfersBatch tbl batch = tbl := by
  induction batch with
  | nil => intro tbl _; rfl
  | cons a rest ih =>
    intro tbl h
    show insertTransfersBatch (insertTransfer tbl a) rest = tbl
    rw [insertTransfer_of_hasKey tbl a (h a (List.mem_cons_self a rest))]
    exact ih tbl fun t ht => h t (List.mem_cons_of_mem a ht)

theorem edgeCountAt_cons (e : AggregatedEdge) (tbl : List AggregatedEdge)
    (k : List Nat × List Nat × Int) :
    edgeCountAt (e :: tbl) k =
      (if edgeKey e = k then e.transferCount else 0) + edgeCountAt tbl k := by
  by_cases h : edgeKey e = k <;> simp [edgeCountAt, h, List.filter_cons]

theorem batchCountAt_cons (t : StablecoinTransfer)
    (batch : List StablecoinTransfer) (k : List Nat × List Nat × Int) :
    batchCountAt (t :: batch) k =
      (if tEdgeKey t = k then 1 else 0) + batchCountAt batch k := by
  by_cases h : tEdgeKey t = k <;>
    simp [batchCountAt, h, List.filter_cons] <;> omega

theorem edgeCountAt_nil (k : List Nat × List Nat × Int) :
    edgeCountAt [] k = 0 := rfl

theorem edgeCountAt_aggregateInsert (m : List AggregatedEdge)
    (t : StablecoinTransfer) (k : List Nat × List Nat × Int) :
    edgeCountAt (aggregateInsert m t) k =
      edgeCountAt m k + (if tEdgeKey t = k then 1 else 0) := by
  induction m with
  | nil =>
    show edgeCountAt [newAggregate t] k = _
    rw [edgeCountAt_cons, edgeCountAt_nil]
    have hk : edgeKey (newAggregate t) = tEdgeKey t := rfl
    have hc : (newAggregate t).transferCount = 1 := rfl
    rw [hk, hc]
    omega
  | cons e rest ih =>
    by_cases hm : edgeKey e = tEdgeKey t
    · rw [show aggregateInsert (e :: rest) t = updateAggregate e t :: rest
        from by rw [aggregateInsert, if_pos hm]]
      rw [edgeCountAt_cons, edgeCountAt_cons]
      have hupd : edgeKey (updateAggregate e t) = edgeKey e := rfl
      have hcount : (updateAggregate e t).transferCount = e.transferCount + 1 := rfl
      rw [hupd, hcount, ← hm]
      split_ifs <;> omega
    · rw [show aggregateInsert (e :: rest) t = e :: aggregateInsert rest t
        from by rw [aggregateInsert, if_neg hm]]
      rw [edgeCountAt_cons, edgeCountAt_cons, ih]
      split_ifs <;> omega

theorem edgeCountAt_foldl_aggregateInsert (batch : List StablecoinTransfer) :
    ∀ (m : List AggregatedEdge) (k : List Nat × List Nat × Int),
      edgeCountAt (batch.foldl aggregateInsert m) k =
        edgeCountAt m k + batchCountAt batch k := by
  induction batch with
  | nil => intro m k; simp [batchCountAt]
  | cons t rest ih =>
    intro m k
    show edgeCountAt (rest.foldl aggregateInsert (aggregateInsert m t)) k = _
    rw [ih, edgeCountAt_aggregateInsert, batchCountAt_cons]
    omega

theorem edgeCountAt_aggregateEdges (batch : List StablecoinTransfer)
    (k : List Nat × List Nat × Int) :
    edgeCountAt (aggregateEdges batch) k = batchCountAt batch k := by
  have := edgeCountAt_foldl_aggregateInsert batch [] k
  simpa [aggregateEdges, edgeCountAt] using this

theorem edgeCountAt_upsertEdge (tbl : List AggregatedEdge)
    (e : AggregatedEdge) (k : List Nat × List Nat × Int) :
    edgeCountAt (upsertEdge tbl e) k =
      edgeCountAt tbl k + (if edgeKey e = k then e.transferCount else 0) := by
  induction tbl with
  | nil =>
    show edgeCountAt [e] k = _
    rw [edgeCountAt_cons, edgeCountAt_nil]
    omega
  | cons r rest ih =>
    by_cases hm : edgeKey r = edgeKey e
    · rw [show upsertEdge (r :: rest) e = mergeEdge r e :: rest
        from by rw [upsertEdge, if_pos hm]; rfl]
      rw [edgeCountAt_cons, edgeCountAt_cons]
      have hkey : edgeKey (mergeEdge r e) = edgeKey r := rfl
      have hcount : (mergeEdge r e).transferCount =
        r.transferCount + e.transferCount := rfl
      rw [hkey, hcount, hm]
      split_ifs <;> omega
    · rw [show upsertEdge (r :: rest) e = r :: upsertEdge rest e
        from by rw [upsertEdge, if_neg hm]]
      rw [edgeCountAt_cons, edgeCountAt_cons, ih]
      split_ifs <;> omega

theorem edgeCountAt_foldl_upsertEdge (es : List AggregatedEdge) :
    ∀ (tbl : List AggregatedEdge) (k : List Nat × List Nat × Int),
      edgeCountAt (es.foldl upsertEdge tbl) k =
        edgeCountAt tbl k + edgeCountAt es k := by
  induction es with
  | nil => intro tbl k; simp [edgeCountAt]
  | cons e rest ih =>
    intro tbl k
    show edgeCountAt (rest.foldl upsertEdge (upsertEdge tbl e)) k = _
    rw [ih, edgeCountAt_upsertEdge, edgeCountAt_cons]
    omega

theorem updateEdges_count (tbl : List AggregatedEdge)
    (batch : List StablecoinTransfer) (k : List Nat × List Nat × Int) :
    edgeCountAt (updateEdges tbl batch) k =
      edgeCountAt tbl k + batchCountAt batch k := by
  rw [updateEdges, edgeCountAt_foldl_upsertEdge, edgeCountAt_aggregateEdges]

/-- Counterexample to C2: inserting the same single-transfer batch twice
really does insert zero new rows, but re-running the graph-edge upsert on
the identical batch doubles the edge's `transfer_count` — the database is
not identical after a replay. -/
theorem replay_graph_edges_not_idempotent :
    insertTransfersBatch (insertTransfersBatch emptyTransfersTable
        [edgeTransfer]) [edgeTransfer] =
      insertTransfersBatch emptyTransfersTable [edgeTransfer] ∧
    (updateEdges [] [edgeTransfer]).map (·.transferCount) = [1] ∧
    (updateEdges (updateEdges [] [edgeTransfer]) [edgeTransfer]).map
      (·.transferCount) = [2] ∧
    updateEdges (updateEdges [] [edgeTransfer]) [edgeTransfer] ≠
      updateEdges [] [edgeTransfer] := by
  refine ⟨by decide, by decide, by decide, by decide⟩

/-- C2 (amended): persisting the same transfer batch twice inserts zero new
rows — the second `insert_transfers_batch` is a no-op for any table and
batch — but replaying enrichment is not idempotent: each `update_edges` run
adds the batch's aggregated per-key delta to `transfer_count`, so the second
run doubles the contribution instead of changing nothing. -/
theorem replay_insert_idempotent_edges_additive :
    (∀ (tbl : TransfersTable) (batch : List StablecoinTransfer),
      insertTransfersBatch (insertTransfersBatch tbl batch) batch =
        insertTransfersBatch tbl batch) ∧
    (∀ (tbl : List AggregatedEdge) (batch : List StablecoinTransfer)
        (k : List Nat × List Nat × Int),
      edgeCountAt (updateEdges tbl batch) k =
        edgeCountAt tbl k + batchCountAt batch k) ∧
    (∀ (tbl : List AggregatedEdge) (batch : List StablecoinTransfer)
        (k : List Nat × List Nat × Int),
      edgeCountAt (updateEdges (updateEdges tbl batch) batch) k =
        edgeCountAt tbl k + 2 * batchCountAt batch k) := by
  refine ⟨?_, updateEdges_count, ?_⟩
  · intro tbl batch
    exact insertTransfersBatch_noop batch _ fun t ht => hasKey_after_batch batch tbl t ht
  · intro tbl batch k
    rw [updateEdges_count, updateEdges_count]
    ring

theorem rowAt_nil (k : List Nat × List Nat × Int) : rowAt [] k = none := rfl

theorem rowAt_cons (e : AggregatedEdge) (tbl : List AggregatedEdge)
    (k : List Nat × List Nat × Int) :
    rowAt (e :: tbl) k = if edgeKey e = k then some e else rowAt tbl k := by
  by_cases h : edgeKey e = k <;> simp [rowAt, List.find?_cons, h]

theorem rowAt_upsertEdge_ne (tbl : List AggregatedEdge) (e : AggregatedEdge)
    (k : List Nat × List Nat × Int) (h : edgeKey e ≠ k) :
    rowAt (upsertEdge tbl e) k = rowAt tbl k := by
  induction tbl with
  | nil =>
    show rowAt [e] k = rowAt [] k
    rw [rowAt_cons, if_neg h]
  | cons r rest ih =>
    by_cases hm : edgeKey r = edgeKey e
    · rw [show upsertEdge (r :: rest) e = mergeEdge r e :: rest
        from by rw [upsertEdge, if_pos hm]; rfl]
      have hkey : edgeKey (mergeEdge r e) = edgeKey r := rfl
      have hrk : edgeKey r ≠ k := fun hh => h (hm ▸ hh)
      rw [rowAt_cons, rowAt_cons, hkey, if_neg hrk, if_neg hrk]
    · rw [show upsertEdge (r :: rest) e = r :: upsertEdge rest e
        from by rw [upsertEdge, if_neg hm]]
      rw [rowAt_cons, rowAt_cons, ih]

theorem rowAt_upsertEdge_eq (tbl : List AggregatedEdge) (e : AggregatedEdge)
    (k : List Nat × List Nat × Int) (r : AggregatedEdge)
    (hk : edgeKey e = k) (h : rowAt tbl k = some r) :
    rowAt (upsertEdge tbl e) k = some (mergeEdge r e) := by
  induction tbl with
  | nil => rw [rowAt_nil] at h; cases h
  | cons r0 rest ih =>
    rw [rowAt_cons] at h
    by_cases h0 : edgeKey r0 = k
    · rw [if_pos h0] at h
      injection h with h
      have hm : edgeKey r0 = edgeKey e := h0.trans hk.symm
      rw [show upsertEdge (r0 :: rest) e = mergeEdge r0 e :: rest
        from by rw [upsertEdge, if_pos hm]; rfl]
      have hkey : edgeKey (mergeEdge r0 e) = edgeKey r0 := rfl
      rw [rowAt_cons, hkey, if_pos h0, h]
    · rw [if_neg h0] at h
      have hm : edgeKey r0 ≠ edgeKey e := fun hh => h0 (hh.trans hk)
      rw [show upsertEdge (r0 :: rest) e = r0 :: upsertEdge rest e
        from by rw [upsertEdge, if_neg hm]]
      rw [rowAt_cons, if_neg h0]
      exact ih h

theorem rowAt_foldl_upsert_absent (es : List AggregatedEdge)
    (k : List Nat × List Nat × Int) :
    ∀ tbl : List AggregatedEdge, (∀ e ∈ es, edgeKey e ≠ k) →
      rowAt (es.foldl upsertEdge tbl) k = rowAt tbl k := by
  induction es with
  | nil => intro tbl _; rfl
  | cons e rest ih =>
    intro tbl h
    show rowAt (rest.foldl upsertEdge (upsertEdge tbl e)) k = _
    rw [ih (upsertEdge tbl e) fun x hx => h x (List.mem_cons_of_mem e hx),
      rowAt_upsertEdge_ne tbl e k (h e (List.mem_cons_self e rest))]

theorem mem_keys_aggregateInsert (m : List AggregatedEdge)
    (t : StablecoinTransfer) (k : List Nat × List Nat × Int)
    (h : k ∈ (aggregateInsert m t).map edgeKey) :
    k ∈ m.map edgeKey ∨ k = tEdgeKey t := by
  induction m with
  | nil =>
    simp [aggregateInsert] at h
    right
    rw [h]; rfl
  | cons e rest ih =>
    by_cases hm : edgeKey e = tEdgeKey t
    · rw [show aggregateInsert (e :: rest) t = updateAggregate e t :: rest
        from by rw [aggregateInsert, if_pos hm]] at h
      have hupd : edgeKey (updateAggregate e t) = edgeKey e := rfl
      rw [List.map_cons, hupd] at h
      exact Or.inl (by rw [List.map_cons]; exact h)
    · rw [show aggregateInsert (e :: rest) t = e :: aggregateInsert rest t
        from by rw [aggregateInsert, if_neg hm]] at h
      rw [List.map_cons] at h
      rcases List.mem_cons.mp h with h | h
      · exact Or.inl (by rw [List.map_cons]; exact List.mem_cons.mpr (Or.inl h))
      · rcases ih h with h' | h'
        · exact Or.inl (by rw [List.map_cons]; exact List.mem_cons.mpr (Or.inr h'))
        · exact Or.inr h'

theorem keys_nodup_aggregateInsert (m : List AggregatedEdge)
    (t : StablecoinTransfer) (h : (m.map edgeKey).Nodup) :
    ((aggregateInsert m t).map edgeKey).Nodup := by
  induction m with
  | nil => simp [aggregateInsert]
  | cons e rest ih =>
    rw [List.map_cons, List.nodup_cons] at h
    by_cases hm : edgeKey e = tEdgeKey t
    · rw [show aggregateInsert (e :: rest) t = updateAggregate e t :: rest
        from by rw [aggregateInsert, if_pos hm]]
      have hupd : edgeKey (updateAggregate e t) = edgeKey e := rfl
      rw [List.map_cons, List.nodup_cons, hupd]
      exact ⟨h.1, h.2⟩
    · rw [show aggregateInsert (e :: rest) t = e :: aggregateInsert rest t
        from by rw [aggregateInsert, if_neg hm]]
      rw [List.map_cons, List.nodup_cons]
      refine ⟨?_, ih h.2⟩
      intro hmem
      rcases mem_keys_aggregateInsert rest t (edgeKey e) hmem with h' | h'
      · exact h.1 h'
      · exact hm h'

theorem keys_nodup_aggregateEdges (batch : List StablecoinTransfer) :
    ((aggregateEdges batch).map edgeKey).Nodup := by
  suffices h : ∀ m : List AggregatedEdge, (m.map edgeKey).Nodup →
      ((batch.foldl aggregateInsert m).map edgeKey).Nodup by
    exact h [] (by simp)
  induction batch with
  | nil => intro m hm; exact hm
  | cons t rest ih =>
    intro m hm
    exact ih (aggregateInsert m t) (keys_nodup_aggregateInsert m t hm)

theorem rowAt_foldl_upsert_found (es : List AggregatedEdge)
    (k : List Nat × List Nat × Int) (a : AggregatedEdge) :
    ∀ (tbl : List AggregatedEdge) (r : AggregatedEdge),
      (es.map edgeKey).Nodup → rowAt es k = some a → rowAt tbl k = some r →
      rowAt (es.foldl upsertEdge tbl) k = some (mergeEdge r a) := by
  induction es with
  | nil => intro tbl r _ ha _; rw [rowAt_nil] at ha; cases ha
  | cons e rest ih =>
    intro tbl r hnd ha hr
    rw [List.map_cons, List.nodup_cons] at hnd
    rw [rowAt_cons] at ha
    by_cases h0 : edgeKey e = k
    · rw [if_pos h0] at ha
      injection ha with ha
      show rowAt (rest.foldl upsertEdge (upsertEdge tbl e)) k = _
      have habsent : ∀ x ∈ rest, edgeKey x ≠ k := by
        intro x hx hxk
        exact hnd.1 (h0 ▸ hxk ▸ List.mem_map_of_mem edgeKey hx)
      rw [rowAt_foldl_upsert_absent rest k (upsertEdge tbl e) habsent, ← ha]
      exact rowAt_upsertEdge_eq tbl e k r h0 hr
    · rw [if_neg h0] at ha
      show rowAt (rest.foldl upsertEdge (upsertEdge tbl e)) k = _
      exact ih (upsertEdge tbl e) r hnd.2 ha
        (by rw [rowAt_upsertEdge_ne tbl e k h0]; exact hr)

theorem rowAt_aggregateInsert (m : List AggregatedEdge)
    (t : StablecoinTransfer) (k : List Nat × List Nat × Int) :
    rowAt (aggregateInsert m t) k =
      if tEdgeKey t = k then aggStep (rowAt m k) t else rowAt m k := by
  induction m with
  | nil =>
    show rowAt [newAggregate t] k = _
    rw [rowAt_cons, rowAt_nil]
    have hk : edgeKey (newAggregate t) = tEdgeKey t := rfl
    rw [hk]
    by_cases h : tEdgeKey t = k
    · rw [if_pos h, if_pos h]; rfl
    · rw [if_neg h, if_neg h]
  | cons e rest ih =>
    by_cases hm : edgeKey e = tEdgeKey t
    · rw [show aggregateInsert (e :: rest) t = updateAggregate e t :: rest
        from by rw [aggregateInsert, if_pos hm]]
      have hupd : edgeKey (updateAggregate e t) = edgeKey e := rfl
      rw [rowAt_cons, rowAt_cons, hupd]
      by_cases h : tEdgeKey t = k
      · have he : edgeKey e = k := hm.trans h
        rw [if_pos he, if_pos h, if_pos he]; rfl
      · have he : ¬ edgeKey e = k := fun hh => h (hm.symm.trans hh)
        rw [if_neg he, if_neg h, if_neg he]
    · rw [show aggregateInsert (e :: rest) t = e :: aggregateInsert rest t
        from by rw [aggregateInsert, if_neg hm]]
      rw [rowAt_cons, rowAt_cons, ih]
      by_cases h0 : edgeKey e = k
      · have ht : ¬ tEdgeKey t = k := fun hh => hm (h0.trans hh.symm)
        rw [if_pos h0, if_neg ht, if_pos h0]
      · rw [if_neg h0]
        by_cases h : tEdgeKey t = k
        · rw [if_pos h, if_pos h, if_neg h0]
        · rw [if_neg h, if_neg h, if_neg h0]

theorem rowAt_foldl_aggregateInsert (batch : List StablecoinTransfer) :
    ∀ (m : List AggregatedEdge) (k : List Nat × List Nat × Int),
      rowAt (batch.foldl aggregateInsert m) k =
        (batch.filter fun t => tEdgeKey t == k).foldl aggStep (rowAt m k) := by
  induction batch with
  | nil => intro m k; rfl
  | cons t rest ih =>
    intro m k
    show rowAt (rest.foldl aggregateInsert (aggregateInsert m t)) k = _
    rw [ih, rowAt_aggregateInsert]
    by_cases h : tEdgeKey t = k
    · rw [if_pos h]
      simp [List.filter_cons, h]
    · rw [if_neg h]
      simp [List.filter_cons, h]

theorem aggStep_foldl_some (l : List StablecoinTransfer) :
    ∀ e : AggregatedEdge,
      l.foldl aggStep (some e) = some (l.foldl updateAggregate e) := by
  induction l with
  | nil => intro e; rfl
  | cons t rest ih =>
    intro e
    show rest.foldl aggStep (aggStep (some e) t) = _
    rw [show aggStep (some e) t = some (updateAggregate e t) from rfl, ih]
    rfl

theorem foldl_updateAggregate_count (l : List StablecoinTransfer) :
    ∀ e : AggregatedEdge,
      (l.foldl updateAggregate e).transferCount =
        e.transferCount + (l.length : Int) := by
  induction l with
  | nil => intro e; simp
  | cons t rest ih =>
    intro e
    show (rest.foldl updateAggregate (updateAggregate e t)).transferCount = _
    rw [ih, show (updateAggregate e t).transferCount = e.transferCount + 1 from rfl,
      List.length_cons]
    push_cast
    ring

theorem foldl_updateAggregate_total (l : List StablecoinTransfer) :
    ∀ e : AggregatedEdge,
      (l.foldl updateAggregate e).totalAmount =
        e.totalAmount + (l.map (·.amount)).sum := by
  induction l with
  | nil => intro e; simp
  | cons t rest ih =>
    intro e
    show (rest.foldl updateAggregate (updateAggregate e t)).totalAmount = _
    rw [ih, show (updateAggregate e t).totalAmount = e.totalAmount + t.amount from rfl]
    rw [List.map_cons, List.sum_cons]
    ring

theorem if_lt_eq_min (a b : ℚ) : (if a < b then a else b) = min b a := by
  split_ifs with h
  · exact (min_eq_right h.le).symm
  · exact (min_eq_left (le_of_not_lt h)).symm

theorem if_lt_eq_max (a b : ℚ) : (if b < a then a else b) = max b a := by
  split_ifs with h
  · exact (max_eq_right h.le).symm
  · exact (max_eq_left (le_of_not_lt h)).symm

theorem foldl_updateAggregate_first (l : List StablecoinTransfer) :
    ∀ e : AggregatedEdge,
      (l.foldl updateAggregate e).firstSeen =
        (l.map (·.blockTimestamp)).foldl min e.firstSeen := by
  induction l with
  | nil => intro e; rfl
  | cons t rest ih =>
    intro e
    show (rest.foldl updateAggregate (updateAggregate e t)).firstSeen = _
    rw [ih, show (updateAggregate e t).firstSeen =
      if t.blockTimestamp < e.firstSeen then t.blockTimestamp else e.firstSeen
      from rfl]
    rw [if_lt_eq_min, List.map_cons, List.foldl_cons]

theorem foldl_updateAggregate_last (l : List StablecoinTransfer) :
    ∀ e : AggregatedEdge,
      (l.foldl updateAggregate e).lastSeen =
        (l.map (·.blockTimestamp)).foldl max e.lastSeen := by
  induction l with
  | nil => intro e; rfl
  | cons t rest ih =>
    intro e
    show (rest.foldl updateAggregate (updateAggregate e t)).lastSeen = _
    rw [ih, show (updateAggregate e t).lastSeen =
      if e.lastSeen < t.blockTimestamp then t.blockTimestamp else e.lastSeen
      from rfl]
    rw [if_lt_eq_max, List.map_cons, List.foldl_cons]

theorem qMinStep_foldl_some (xs : List ℚ) :
    ∀ m : ℚ, xs.foldl (fun o x => some (match o with
      | none => x | some m => min m x)) (some m) = some (xs.foldl min m) := by
  induction xs with
  | nil => intro m; rfl
  | cons x rest ih => intro m; exact ih (min m x)

theorem qListMin_cons (x : ℚ) (xs : List ℚ) :
    qListMin (x :: xs) = some (xs.foldl min x) := by
  show xs.foldl _ (some x) = _
  exact qMinStep_foldl_some xs x

theorem qMaxStep_foldl_some (xs : List ℚ) :
    ∀ m : ℚ, xs.foldl (fun o x => some (match o with
      | none => x | some m => max m x)) (some m) = some (xs.foldl max m) := by
  induction xs with
  | nil => intro m; rfl
  | cons x rest ih => intro m; exact ih (max m x)

theorem qListMax_cons (x : ℚ) (xs : List ℚ) :
    qListMax (x :: xs) = some (xs.foldl max x) := by
  show xs.foldl _ (some x) = _
  exact qMaxStep_foldl_some xs x

/-- Counterexample to C8: an existing edge row with `first_seen = 100` hit
by a batch transfer with the earlier timestamp 50 keeps `first_seen = 100`
after the upsert; the earliest of the existing and incoming values would be
50, but the `DO UPDATE` clause never touches `first_seen`. -/
theorem edge_first_seen_keeps_existing_value :
    existingEdge.firstSeen = 100 ∧
    edgeTransferEarly.blockTimestamp = 50 ∧
    edgeTransferEarly.blockTimestamp < existingEdge.firstSeen ∧
    (updateEdges [existingEdge] [edgeTransferEarly]).map (·.firstSeen) = [100] := by
  refine ⟨by decide, by decide, by decide, by decide⟩

/-- C8 (amended): when a graph-edge upsert hits an existing
`(source, dest, chain_id)` row, `transfer_count` and `total_amount` grow by
the batch's aggregated delta (the count and amount-sum of the batch
transfers on that key), `last_seen` becomes the maximum of the existing and
incoming values (the incoming one being the batch maximum), and `first_seen`
is left at the existing row's value — it is never overwritten after insert,
so it is NOT updated to an earlier incoming value (within the batch
aggregate itself, `first_seen` is the batch minimum). -/
theorem edge_upsert_conflict_semantics (tbl : List AggregatedEdge)
    (batch : List StablecoinTransfer) (k : List Nat × List Nat × Int)
    (r a : AggregatedEdge)
    (hr : rowAt tbl k = some r) (ha : aggAt batch k = some a) :
    rowAt (updateEdges tbl batch) k = some (mergeEdge r a) ∧
    (mergeEdge r a).transferCount = r.transferCount + a.transferCount ∧
    (mergeEdge r a).totalAmount = r.totalAmount + a.totalAmount ∧
    (mergeEdge r a).lastSeen = max r.lastSeen a.lastSeen ∧
    (mergeEdge r a).firstSeen = r.firstSeen ∧
    a.transferCount = batchCountAt batch k ∧
    a.totalAmount = batchAmountAt batch k ∧
    some a.firstSeen =
      qListMin ((batch.filter fun t => tEdgeKey t == k).map (·.blockTimestamp)) ∧
    some a.lastSeen =
      qListMax ((batch.filter fun t => tEdgeKey t == k).map (·.blockTimestamp)) := by
  have heq : rowAt (aggregateEdges batch) k =
      (batch.filter fun t => tEdgeKey t == k).foldl aggStep (rowAt [] k) := by
    rw [aggregateEdges, rowAt_foldl_aggregateInsert]
  rw [rowAt_nil] at heq
  have hagg : rowAt (aggregateEdges batch) k = some a := ha
  refine ⟨?_, rfl, rfl, rfl, rfl, ?_⟩
  · rw [updateEdges]
    exact rowAt_foldl_upsert_found (aggregateEdges batch) k a tbl r
      (keys_nodup_aggregateEdges batch) hagg hr
  · cases hflc : batch.filter fun t => tEdgeKey t == k with
    | nil =>
      rw [heq, hflc] at hagg
      cases hagg
    | cons t0 rest =>
      rw [heq, hflc] at hagg
      have hsome : some (rest.foldl updateAggregate (newAggregate t0)) = some a := by
        rw [← aggStep_foldl_some]
        exact hagg
      injection hsome with hA
      have hcount := foldl_updateAggregate_count rest (newAggregate t0)
      have htotal := foldl_updateAggregate_total rest (newAggregate t0)
      have hfirst := foldl_updateAggregate_first rest (newAggregate t0)
      have hlast := foldl_updateAggregate_last rest (newAggregate t0)
      rw [hA] at hcount htotal hfirst hlast
      refine ⟨?_, ?_, ?_, ?_⟩
      · rw [hcount, batchCountAt, hflc, List.length_cons,
          show (newAggregate t0).transferCount = 1 from rfl]
        push_cast
        ring
      · rw [htotal, batchAmountAt, hflc, List.map_cons, List.sum_cons,
          show (newAggregate t0).totalAmount = t0.amount from rfl]
      · rw [List.map_cons, qListMin_cons, hfirst,
          show (newAggregate t0).firstSeen = t0.blockTimestamp from rfl]
      · rw [List.map_cons, qListMax_cons, hlast,
          show (newAggregate t0).lastSeen = t0.blockTimestamp from rfl]

/-- Witness: the concrete conflict of the counterexample, through the
theorem: the single-row table is updated to the merged row. -/
theorem edge_upsert_conflict_semantics_witness :
    rowAt (updateEdges [existingEdge] [edgeTransferEarly]) ([1], [2], 1) =
      some (mergeEdge existingEdge (newAggregate edgeTransferEarly)) :=
  (edge_upsert_conflict_semantics [existingEdge] [edgeTransferEarly]
    ([1], [2], 1) existingEdge (newAggregate edgeTransferEarly)
    (by decide) (by decide)).1

theorem anomalyType_checkLargeTransfer (t : StablecoinTransfer)
    (thresholds : List (String × ℚ)) (r : AnomalyRecord)
    (h : checkLargeTransfer t thresholds = some r) :
    r.anomalyType = .largeTransfer := by
  simp only [checkLargeTransfer] at h
  split at h
  · cases h; rfl
  · simp at h

theorem anomalyType_checkSanctioned (t : StablecoinTransfer)
    (store : EntityLabelStore) (r : AnomalyRecord)
    (h : checkSanctionedCounterparty t store = some r) :
    r.anomalyType = .sanctionedCounterparty := by
  simp only [checkSanctionedCounterparty] at h
  split at h
  · cases h; rfl
  · simp at h

theorem anomalyType_roundScan (t : StablecoinTransfer)
    (humanAmount tolerance : ℚ) (l : List ℚ) (r : AnomalyRecord)
    (h : roundScan t humanAmount tolerance l = some r) :
    r.anomalyType = .roundNumber := by
  rw [roundScan_eq_find] at h
  rcases Option.map_eq_some'.mp h with ⟨th, -, hw⟩
  rw [← hw]
  rfl

theorem anomalyType_checkRoundNumber (t : StablecoinTransfer)
    (tolerance : ℚ) (r : AnomalyRecord)
    (h : checkRoundNumber t tolerance = some r) :
    r.anomalyType = .roundNumber := by
  simp only [checkRoundNumber] at h
  split at h
  · simp at h
  · exact anomalyType_roundScan _ _ _ _ _ h

theorem anomalyType_checkNewWallet (t : StablecoinTransfer)
    (newWallets : List NewWalletEvent) (thresholdUsd : ℚ) (r : AnomalyRecord)
    (h : checkNewWalletLargeReceive t newWallets thresholdUsd = some r) :
    r.anomalyType = .newWalletLargeReceive := by
  simp only [checkNewWalletLargeReceive] at h
  split at h
  · simp at h
  · split at h
    · cases h; rfl
    · simp at h

theorem anomalyType_checkVelocity (table : List StablecoinTransfer)
    (t : StablecoinTransfer) (w maxT : Nat) (r : AnomalyRecord)
    (h : checkVelocity table t w maxT = some r) :
    r.anomalyType = .velocity := by
  simp only [checkVelocity] at h
  split at h
  · cases h; rfl
  · simp at h

theorem anomalyType_checkCrossChain (table : List StablecoinTransfer)
    (t : StablecoinTransfer) (w : Nat) (r : AnomalyRecord)
    (h : checkCrossChainActivity table t w = some r) :
    r.anomalyType = .crossChainActivity := by
  simp only [checkCrossChainActivity] at h
  split at h
  · cases h; rfl
  · simp at h

theorem filter_toList_of_ne (o : Option AnomalyRecord) (ty ty' : AnomalyType)
    (h : ∀ r, o = some r → r.anomalyType = ty') (hne : ty' ≠ ty) :
    o.toList.filter (fun r => r.anomalyType == ty) = [] := by
  cases o with
  | none => rfl
  | some r =>
    have hr := h r rfl
    have hb : (ty' == ty) = false := beq_eq_false_iff_ne.mpr hne
    simp [Option.toList, List.filter, hr, hb]

theorem filter_toList_of_eq (o : Option AnomalyRecord) (ty : AnomalyType)
    (h : ∀ r, o = some r → r.anomalyType = ty) :
    o.toList.filter (fun r => r.anomalyType == ty) = o.toList := by
  cases o with
  | none => rfl
  | some r =>
    have hr := h r rfl
    simp [Option.toList, List.filter, hr]

theorem filter_flatMap (l : List StablecoinTransfer)
    (f : StablecoinTransfer → List AnomalyRecord) (p : AnomalyRecord → Bool) :
    (l.flatMap f).filter p = l.flatMap fun a => (f a).filter p := by
  induction l with
  | nil => rfl
  | cons a rest ih => simp [List.flatMap_cons, List.filter_append, ih]

theorem perTransfer_filter_large (cfg : AnomalyDetectionConfig)
    (table : List StablecoinTransfer) (n : Nat) (store : EntityLabelStore)
    (nw : List NewWalletEvent) (t : StablecoinTransfer) :
    (perTransferAnomalies cfg table n store nw t).filter
        (fun r => r.anomalyType == AnomalyType.largeTransfer) =
      if cfg.largeTransferThresholds.isEmpty then []
      else (checkLargeTransfer t cfg.largeTransferThresholds).toList := by
  have hS := filter_toList_of_ne (checkSanctionedCounterparty t store)
    .largeTransfer .sanctionedCounterparty
    (fun r h => anomalyType_checkSanctioned t store r h) (by simp)
  have hR := filter_toList_of_ne (checkRoundNumber t cfg.roundNumber.tolerance)
    .largeTransfer .roundNumber
    (fun r h => anomalyType_checkRoundNumber t _ r h) (by simp)
  have hN := filter_toList_of_ne
    (checkNewWalletLargeReceive t nw cfg.newWallet.thresholdUsd)
    .largeTransfer .newWalletLargeReceive
    (fun r h => anomalyType_checkNewWallet t nw _ r h) (by simp)
  have hV := filter_toList_of_ne
    (checkVelocity table t cfg.velocity.windowSecs cfg.velocity.maxTransfers)
    .largeTransfer .velocity
    (fun r h => anomalyType_checkVelocity table t _ _ r h) (by simp)
  have hC := filter_toList_of_ne
    (checkCrossChainActivity table t cfg.crossChain.windowSecs)
    .largeTransfer .crossChainActivity
    (fun r h => anomalyType_checkCrossChain table t _ r h) (by simp)
  have hL := filter_toList_of_eq
    (checkLargeTransfer t cfg.largeTransferThresholds) .largeTransfer
    (fun r h => anomalyType_checkLargeTransfer t _ r h)
  unfold perTransferAnomalies
  simp only [List.filter_append, hS, hR, hN, List.append_nil, List.nil_append]
  split_ifs <;> simp [hV, hC, hL]

theorem perTransfer_filter_velocity (cfg : AnomalyDetectionConfig)
    (table : List StablecoinTransfer) (n : Nat) (store : EntityLabelStore)
    (nw : List NewWalletEvent) (t : StablecoinTransfer) :
    (perTransferAnomalies cfg table n store nw t).filter
        (fun r => r.anomalyType == AnomalyType.velocity) =
      if n ≤ 100 then
        (checkVelocity table t cfg.velocity.windowSecs
          cfg.velocity.maxTransfers).toList
      else [] := by
  have hS := filter_toList_of_ne (checkSanctionedCounterparty t store)
    .velocity .sanctionedCounterparty
    (fun r h => anomalyType_checkSanctioned t store r h) (by simp)
  have hR := filter_toList_of_ne (checkRoundNumber t cfg.roundNumber.tolerance)
    .velocity .roundNumber
    (fun r h => anomalyType_checkRoundNumber t _ r h) (by simp)
  have hN := filter_toList_of_ne
    (checkNewWalletLargeReceive t nw cfg.newWallet.thresholdUsd)
    .velocity .newWalletLargeReceive
    (fun r h => anomalyType_checkNewWallet t nw _ r h) (by simp)
  have hC := filter_toList_of_ne
    (checkCrossChainActivity table t cfg.crossChain.windowSecs)
    .velocity .crossChainActivity
    (fun r h => anomalyType_checkCrossChain table t _ r h) (by simp)
  have hl := filter_toList_of_ne
    (checkLargeTransfer t cfg.largeTransferThresholds)
    .velocity .largeTransfer
    (fun r h => anomalyType_checkLargeTransfer t _ r h) (by simp)
  have hV := filter_toList_of_eq
    (checkVelocity table t cfg.velocity.windowSecs cfg.velocity.maxTransfers)
    .velocity (fun r h => anomalyType_checkVelocity table t _ _ r h)
  unfold perTransferAnomalies
  simp only [List.filter_append, hS, hR, hN, List.append_nil, List.nil_append]
  split_ifs <;> simp [hV, hC, hl]

theorem analyzeBatch_filter_large (cfg : AnomalyDetectionConfig)
    (table batch : List StablecoinTransfer) (store : EntityLabelStore)
    (nw : List NewWalletEvent) (he : cfg.enabled = true)
    (hne : cfg.largeTransferThresholds.isEmpty = false) :
    (analyzeBatch cfg table batch store nw).filter
        (fun r => r.anomalyType == AnomalyType.largeTransfer) =
      batch.flatMap fun t =>
        (checkLargeTransfer t cfg.largeTransferThresholds).toList := by
  rw [analyzeBatch, if_pos he, filter_flatMap]
  have hpt : ∀ t, (perTransferAnomalies cfg table batch.length store nw t).filter
      (fun r => r.anomalyType == AnomalyType.largeTransfer) =
      (checkLargeTransfer t cfg.largeTransferThresholds).toList := by
    intro t
    rw [perTransfer_filter_large, hne]
    rfl
  simp only [hpt]

theorem analyzeBatch_filter_velocity_skip (cfg : AnomalyDetectionConfig)
    (table batch : List StablecoinTransfer) (store : EntityLabelStore)
    (nw : List NewWalletEvent) (he : cfg.enabled = true)
    (hn : 100 < batch.length) :
    (analyzeBatch cfg table batch store nw).filter
        (fun r => r.anomalyType == AnomalyType.velocity) = [] := by
  rw [analyzeBatch, if_pos he, filter_flatMap]
  have hpt : ∀ t, (perTransferAnomalies cfg table batch.length store nw t).filter
      (fun r => r.anomalyType == AnomalyType.velocity) = ([] : List AnomalyRecord) := by
    intro t
    rw [perTransfer_filter_velocity, if_neg (by omega)]
  simp only [hpt]
  simp

theorem analyzeBatch_filter_velocity_run (cfg : AnomalyDetectionConfig)
    (table batch : List StablecoinTransfer) (store : EntityLabelStore)
    (nw : List NewWalletEvent) (he : cfg.enabled = true)
    (hn : batch.length ≤ 100) :
    (analyzeBatch cfg table batch store nw).filter
        (fun r => r.anomalyType == AnomalyType.velocity) =
      batch.flatMap fun t =>
        (checkVelocity table t cfg.velocity.windowSecs
          cfg.velocity.maxTransfers).toList := by
  rw [analyzeBatch, if_pos he, filter_flatMap]
  have hpt : ∀ t, (perTransferAnomalies cfg table batch.length store nw t).filter
      (fun r => r.anomalyType == AnomalyType.velocity) =
      (checkVelocity table t cfg.velocity.windowSecs
        cfg.velocity.maxTransfers).toList := by
    intro t
    rw [perTransfer_filter_velocity, if_pos hn]
  simp only [hpt]

/-- Counterexample to C6: with an empty threshold map the engine never runs
the large-transfer rule, so a 200,000-unit transfer produces no
`large_transfer` anomaly in the analysed batch, although by the claim the
threshold would resolve to the 100,000 fallback, the amount meets it, and
the rule itself would fire with risk 40. -/
theorem large_transfer_skipped_on_empty_thresholds :
    (analyzeBatch cfgEmptyThresholds [] [transfer200k] [] []).filter
      (fun r => r.anomalyType == AnomalyType.largeTransfer) = [] ∧
    lookupThreshold [] transfer200k.tokenSymbol = 100000 ∧
    (100000 : ℚ) ≤ rawToHuman transfer200k.amount transfer200k.tokenDecimals ∧
    (checkLargeTransfer transfer200k []).map
      (fun r => (r.anomalyType, r.riskScore)) = some (.largeTransfer, 40) := by
  refine ⟨by decide, by decide, by decide, by decide⟩

/-- C6 (amended): provided the threshold map is non-empty — the engine skips
the rule entirely for an empty map — the large-transfer anomalies of an
analysed batch are exactly the firings of `check_large_transfer`, which
resolves the threshold as the token-symbol entry, else the `"default"`
entry, else 100,000, and fires exactly when the human amount is at least
the threshold, with risk 80 at 10 times the threshold, 60 at 5 times, 40
otherwise; a 500,000 USDC transfer against default threshold 100,000 yields
the single `large_transfer` anomaly with risk 60. -/
theorem large_transfer_rule_spec (cfg : AnomalyDetectionConfig)
    (table batch : List StablecoinTransfer) (store : EntityLabelStore)
    (nw : List NewWalletEvent) (t : StablecoinTransfer)
    (thresholds : List (String × ℚ)) :
    (cfg.enabled = true → cfg.largeTransferThresholds.isEmpty = false →
      (analyzeBatch cfg table batch store nw).filter
          (fun r => r.anomalyType == AnomalyType.largeTransfer) =
        batch.flatMap fun u =>
          (checkLargeTransfer u cfg.largeTransferThresholds).toList) ∧
    ((checkLargeTransfer t thresholds).isSome ↔
      lookupThreshold thresholds t.tokenSymbol ≤
        rawToHuman t.amount t.tokenDecimals) ∧
    (∀ r, checkLargeTransfer t thresholds = some r →
      r.anomalyType = .largeTransfer ∧ r.address = none ∧
      r.riskScore =
        (if lookupThreshold thresholds t.tokenSymbol * 10 ≤
            rawToHuman t.amount t.tokenDecimals then 80
         else if lookupThreshold thresholds t.tokenSymbol * 5 ≤
            rawToHuman t.amount t.tokenDecimals then 60
         else 40)) ∧
    ((analyzeBatch cfgDefaultThreshold [] [usdc500k] [] []).filter
        (fun r => r.anomalyType == AnomalyType.largeTransfer) =
      [{ chainId := 1, anomalyType := .largeTransfer, riskScore := 60,
         address := none, txHash := [1], logIndex := 0 }]) := by
  refine ⟨?_, ?_, ?_, by decide⟩
  · intro he hne
    exact analyzeBatch_filter_large cfg table batch store nw he hne
  · simp only [checkLargeTransfer]
    split
    · simpa using ‹lookupThreshold thresholds t.tokenSymbol ≤ _›
    · simpa using ‹¬ lookupThreshold thresholds t.tokenSymbol ≤ _›
  · intro r h
    simp only [checkLargeTransfer] at h
    split at h
    · cases h
      refine ⟨rfl, rfl, rfl⟩
    · simp at h

/-- Witness: the 500,000 USDC scenario instantiates the engine-level
equation with its hypotheses discharged. -/
theorem large_transfer_rule_spec_witness :
    (analyzeBatch cfgDefaultThreshold [] [usdc500k] [] []).filter
        (fun r => r.anomalyType == AnomalyType.largeTransfer) =
      [usdc500k].flatMap fun u =>
        (checkLargeTransfer u cfgDefaultThreshold.largeTransferThresholds).toList :=
  (large_transfer_rule_spec cfgDefaultThreshold [] [usdc500k] [] []
    usdc500k []).1 (by decide) (by decide)

/-- Counterexample to C5: the velocity SQL has no upper bound on the
timestamp.  With ten same-sender rows in the window before the transfer and
one row 4000 s after it, only ten transfers lie within the window before
the transfer's timestamp — by the claim the count is 10, not above max=10,
so no anomaly — yet the code counts 11 rows and fires with risk 50. -/
theorem velocity_counts_later_transfers :
    (velTableFuture.filter fun r =>
        r.fromAddress == velTransfer.fromAddress &&
        r.chainId == velTransfer.chainId &&
        decide (velTransfer.blockTimestamp - 1000 < r.blockTimestamp) &&
        decide (r.blockTimestamp ≤ velTransfer.blockTimestamp)).length = 10 ∧
    ¬ (10 : Nat) < 10 ∧
    velocityCount velTableFuture velTransfer 1000 = 11 ∧
    (checkVelocity velTableFuture velTransfer 1000 10).map
      (fun r => (r.anomalyType, r.riskScore)) = some (.velocity, 50) := by
  refine ⟨by decide, by decide, by decide, by decide⟩

/-- C5 (amended): the velocity rule counts the stored transfers from the
same `from_address` on the same chain whose `block_timestamp` is strictly
later than the current transfer's timestamp minus `window_secs`, with no
upper bound — the row of the current transfer itself and any later rows are
included; it fires exactly when that count exceeds `max_transfers`, with
risk 70 when the count exceeds five times the maximum and 50 otherwise, and
the engine runs it only for batches of at most 100 transfers; 12 in-window
transfers at max 10 give risk 50, 60 give risk 70. -/
theorem velocity_rule_spec (cfg : AnomalyDetectionConfig)
    (table batch : List StablecoinTransfer) (store : EntityLabelStore)
    (nw : List NewWalletEvent) (t : StablecoinTransfer) (w maxT : Nat) :
    (cfg.enabled = true → 100 < batch.length →
      (analyzeBatch cfg table batch store nw).filter
        (fun r => r.anomalyType == AnomalyType.velocity) = []) ∧
    (cfg.enabled = true → batch.length ≤ 100 →
      (analyzeBatch cfg table batch store nw).filter
          (fun r => r.anomalyType == AnomalyType.velocity) =
        batch.flatMap fun u =>
          (checkVelocity table u cfg.velocity.windowSecs
            cfg.velocity.maxTransfers).toList) ∧
    ((checkVelocity table t w maxT).isSome ↔
      maxT < velocityCount table t (w : ℚ)) ∧
    (∀ r, checkVelocity table t w maxT = some r →
      r.anomalyType = .velocity ∧ r.address = some t.fromAddress ∧
      r.riskScore =
        if maxT * 5 < velocityCount table t (w : ℚ) then 70 else 50) ∧
    ((checkVelocity velTable12 velTransfer 1000 10).map
      (fun r => (r.anomalyType, r.riskScore)) = some (.velocity, 50)) ∧
    ((checkVelocity velTable60 velTransfer 1000 10).map
      (fun r => (r.anomalyType, r.riskScore)) = some (.velocity, 70)) := by
  refine ⟨?_, ?_, ?_, ?_, by decide, by decide⟩
  · intro he hn
    exact analyzeBatch_filter_velocity_skip cfg table batch store nw he hn
  · intro he hn
    exact analyzeBatch_filter_velocity_run cfg table batch store nw he hn
  · simp only [checkVelocity]
    split
    · simpa using ‹maxT < velocityCount table t _›
    · simpa using ‹¬ maxT < velocityCount table t _›
  · intro r h
    simp only [checkVelocity] at h
    split at h
    · cases h
      refine ⟨rfl, rfl, rfl⟩
    · simp at h

/-- Witness: a singleton batch (length 1, at most 100) instantiates the
engine-level equation with its hypotheses discharged. -/
theorem velocity_rule_spec_witness :
    (analyzeBatch cfgDefaultThreshold velTable12 [velTransfer] [] []).filter
        (fun r => r.anomalyType == AnomalyType.velocity) =
      [velTransfer].flatMap fun u =>
        (checkVelocity velTable12 u cfgDefaultThreshold.velocity.windowSecs
          cfgDefaultThreshold.velocity.maxTransfers).toList :=
  (velocity_rule_spec cfgDefaultThreshold velTable12 [velTransfer] [] []
    velTransfer 1000 10).2.1 (by decide) (by decide)

/-- Shared shape of the per-rule facts the persistence claim needs. -/
def recordFromTransfer (r : AnomalyRecord) (t : StablecoinTransfer) : Prop :=
  r.chainId = t.chainId ∧ r.txHash = t.txHash ∧ r.logIndex = t.logIndex ∧
    0 ≤ r.riskScore ∧ r.riskScore ≤ 100

theorem fields_checkLargeTransfer (t : StablecoinTransfer)
    (thresholds : List (String × ℚ)) (r : AnomalyRecord)
    (h : checkLargeTransfer t thresholds = some r) : recordFromTransfer r t := by
  simp only [checkLargeTransfer] at h
  split at h
  · cases h
    refine ⟨rfl, rfl, rfl, ?_, ?_⟩ <;> dsimp only <;> split_ifs <;> norm_num
  · simp at h

theorem fields_checkSanctioned (t : StablecoinTransfer)
    (store : EntityLabelStore) (r : AnomalyRecord)
    (h : checkSanctionedCounterparty t store = some r) : recordFromTransfer r t := by
  simp only [checkSanctionedCounterparty] at h
  split at h
  · cases h
    refine ⟨rfl, rfl, rfl, by norm_num, by norm_num⟩
  · simp at h

theorem fields_checkRoundNumber (t : StablecoinTransfer)
    (tolerance : ℚ) (r : AnomalyRecord)
    (h : checkRoundNumber t tolerance = some r) : recordFromTransfer r t := by
  simp only [checkRoundNumber] at h
  split at h
  · simp at h
  · rw [roundScan_eq_find] at h
    rcases Option.map_eq_some'.mp h with ⟨th, -, hw⟩
    rw [← hw]
    refine ⟨rfl, rfl, rfl, ?_, ?_⟩ <;>
      simp only [roundRecord, roundRisk] <;> split_ifs <;> norm_num

theorem fields_checkNewWallet (t : StablecoinTransfer)
    (newWallets : List NewWalletEvent) (thresholdUsd : ℚ) (r : AnomalyRecord)
    (h : checkNewWalletLargeReceive t newWallets thresholdUsd = some r) :
    recordFromTransfer r t := by
  simp only [checkNewWalletLargeReceive] at h
  split at h
  · simp at h
  · split at h
    · cases h
      refine ⟨rfl, rfl, rfl, ?_, ?_⟩ <;> dsimp only <;> split_ifs <;> norm_num
    · simp at h

theorem fields_checkVelocity (table : List StablecoinTransfer)
    (t : StablecoinTransfer) (w maxT : Nat) (r : AnomalyRecord)
    (h : checkVelocity table t w maxT = some r) : recordFromTransfer r t := by
  simp only [checkVelocity] at h
  split at h
  · cases h
    refine ⟨rfl, rfl, rfl, ?_, ?_⟩ <;> dsimp only <;> split_ifs <;> norm_num
  · simp at h

theorem fields_checkCrossChain (table : List StablecoinTransfer)
    (t : StablecoinTransfer) (w : Nat) (r : AnomalyRecord)
    (h : checkCrossChainActivity table t w = some r) : recordFromTransfer r t := by
  simp only [checkCrossChainActivity] at h
  split at h
  · cases h
    refine ⟨rfl, rfl, rfl, ?_, ?_⟩ <;> dsimp only <;> split_ifs <;> norm_num
  · simp at h

theorem mem_perTransfer_fields (cfg : AnomalyDetectionConfig)
    (table : List StablecoinTransfer) (n : Nat) (store : EntityLabelStore)
    (nw : List NewWalletEvent) (t : StablecoinTransfer) (r : AnomalyRecord)
    (h : r ∈ perTransferAnomalies cfg table n store nw t) :
    recordFromTransfer r t := by
  unfold perTransferAnomalies at h
  simp only [List.mem_append] at h
  rcases h with ((((h | h) | h) | h) | h) | h
  · split at h
    · simp at h
    · rw [Option.mem_toList, Option.mem_def] at h
      exact fields_checkLargeTransfer t _ r h
  · rw [Option.mem_toList, Option.mem_def] at h
    exact fields_checkSanctioned t store r h
  · rw [Option.mem_toList, Option.mem_def] at h
    exact fields_checkRoundNumber t _ r h
  · rw [Option.mem_toList, Option.mem_def] at h
    exact fields_checkNewWallet t nw _ r h
  · split at h
    · rw [Option.mem_toList, Option.mem_def] at h
      exact fields_checkVelocity table t _ _ r h
    · simp at h
  · split at h
    · rw [Option.mem_toList, Option.mem_def] at h
      exact fields_checkCrossChain table t _ r h
    · simp at h

theorem mem_analyzeBatch_fields (cfg : AnomalyDetectionConfig)
    (table batch : List StablecoinTransfer) (store : EntityLabelStore)
    (nw : List NewWalletEvent) (r : AnomalyRecord)
    (h : r ∈ analyzeBatch cfg table batch store nw) :
    ∃ t ∈ batch, recordFromTransfer r t := by
  rw [analyzeBatch] at h
  split at h
  · rcases List.mem_flatMap.mp h with ⟨t, ht, hr⟩
    exact ⟨t, ht, mem_perTransfer_fields cfg table batch.length store nw t r hr⟩
  · simp at h

theorem findTransferId_some (tbl : TransfersTable) (c : Int)
    (hsh : List Nat) (li : Int) (i : Nat)
    (h : findTransferId tbl c hsh li = some i) :
    ∃ u, (i, u) ∈ tbl.rows ∧ u.chainId = c ∧ u.txHash = hsh ∧
      u.logIndex = li := by
  unfold findTransferId at h
  cases hf : tbl.rows.find? fun r =>
      r.2.chainId == c && r.2.txHash == hsh && r.2.logIndex == li with
  | none => rw [hf] at h; simp at h
  | some rr =>
    rw [hf] at h
    simp only [Option.map_some'] at h
    injection h with h
    have hmem := List.mem_of_find?_eq_some hf
    have hp := List.find?_some hf
    simp only [Bool.and_eq_true, beq_iff_eq] at hp
    refine ⟨rr.2, ?_, hp.1.1, hp.1.2, hp.2⟩
    rw [← h, Prod.mk.eta]
    exact hmem

theorem findTransferId_isSome (tbl : TransfersTable) (u : StablecoinTransfer)
    (h : hasTransferKey tbl u = true) :
    (findTransferId tbl u.chainId u.txHash u.logIndex).isSome = true := by
  unfold hasTransferKey at h
  rw [List.any_eq_true] at h
  rcases h with ⟨r, hr, hp⟩
  rw [beq_iff_eq] at hp
  have hcomp : r.2.chainId = u.chainId ∧ r.2.txHash = u.txHash ∧
      r.2.logIndex = u.logIndex := by
    simpa [transferKey, Prod.ext_iff] using hp
  unfold findTransferId
  cases hf : tbl.rows.find? fun s =>
      s.2.chainId == u.chainId && s.2.txHash == u.txHash &&
        s.2.logIndex == u.logIndex with
  | some rr => simp
  | none =>
    exfalso
    apply List.find?_eq_none.mp hf r hr
    simp [hcomp.1, hcomp.2.1, hcomp.2.2]

theorem persist_foldl_mem (transfers : TransfersTable)
    (records : List AnomalyRecord) :
    ∀ (acc : List AnomalyRow × Nat) (row : AnomalyRow),
      row ∈ (records.foldl (persistStep transfers) acc).1 →
      row ∈ acc.1 ∨ ∃ a ∈ records, row = anomalyRowOf transfers a := by
  induction records with
  | nil => intro acc row h; exact Or.inl h
  | cons a rest ih =>
    intro acc row h
    rcases ih (persistStep transfers acc a) row h with h' | ⟨b, hb, hrow⟩
    · have hmem : row ∈ (insertAnomaly acc.1 (anomalyRowOf transfers a)).1 := h'
      by_cases hc : acc.1.any (fun r => anomalyConflict r (anomalyRowOf transfers a)) = true
      · rw [insertAnomaly, if_pos hc] at hmem
        exact Or.inl hmem
      · rw [insertAnomaly, if_neg hc] at hmem
        rcases List.mem_append.mp hmem with h'' | h''
        · exact Or.inl h''
        · simp only [List.mem_singleton] at h''
          exact Or.inr ⟨a, List.mem_cons_self a rest, h''⟩
    · exact Or.inr ⟨b, List.mem_cons_of_mem a hb, hrow⟩

theorem insertAnomaly_unique (tbl : List AnomalyRow) (row : AnomalyRow)
    (hu : anomaliesUnique tbl) : anomaliesUnique (insertAnomaly tbl row).1 := by
  by_cases hc : tbl.any (fun r => anomalyConflict r row) = true
  · rw [insertAnomaly, if_pos hc]
    exact hu
  · rw [insertAnomaly, if_neg hc]
    have hall : ∀ x ∈ tbl, anomalyConflict x row = false := by
      intro x hx
      by_contra hne
      apply hc
      rw [List.any_eq_true]
      exact ⟨x, hx, by revert hne; cases anomalyConflict x row <;> simp⟩
    rw [anomaliesUnique, List.pairwise_append]
    exact ⟨hu, List.pairwise_singleton _ _,
      fun x hx y hy => by simp only [List.mem_singleton] at hy; rw [hy]; exact hall x hx⟩

theorem persist_foldl_unique (transfers : TransfersTable)
    (records : List AnomalyRecord) :
    ∀ acc : List AnomalyRow × Nat, anomaliesUnique acc.1 →
      anomaliesUnique (records.foldl (persistStep transfers) acc).1 := by
  induction records with
  | nil => intro acc hu; exact hu
  | cons a rest ih =>
    intro acc hu
    exact ih (persistStep transfers acc a) (insertAnomaly_unique acc.1 _ hu)

/-- C3: in the pipeline flow — the batch is inserted first, then analysed,
then the anomalies are persisted — every row stored by `persist_anomalies`
that is not a pre-existing row is built from a record of the batch analysis,
is joined back to its transfer by `(chain_id, tx_hash, log_index)` so that
`transfer_id` names an existing transfer row with those key fields, carries
a risk score in [0, 100], and the table stays unique on
`(transfer_id, anomaly_type)`. -/
theorem persisted_anomalies_join_and_risk (tbl : TransfersTable)
    (anoms : List AnomalyRow) (batch : List StablecoinTransfer)
    (cfg : AnomalyDetectionConfig) (store : EntityLabelStore)
    (nw : List NewWalletEvent) (hu : anomaliesUnique anoms) :
    (∀ row ∈ (persistAnomalies (insertTransfersBatch tbl batch) anoms
        (analyzeBatch cfg ((insertTransfersBatch tbl batch).rows.map (·.2))
          batch store nw)).1,
      row ∈ anoms ∨
        ∃ a ∈ analyzeBatch cfg
            ((insertTransfersBatch tbl batch).rows.map (·.2)) batch store nw,
          row = anomalyRowOf (insertTransfersBatch tbl batch) a ∧
          0 ≤ row.riskScore ∧ row.riskScore ≤ 100 ∧
          ∃ i u, row.transferId = some i ∧
            (i, u) ∈ (insertTransfersBatch tbl batch).rows ∧
            u.chainId = a.chainId ∧ u.txHash = a.txHash ∧
            u.logIndex = a.logIndex) ∧
    anomaliesUnique (persistAnomalies (insertTransfersBatch tbl batch) anoms
      (analyzeBatch cfg ((insertTransfersBatch tbl batch).rows.map (·.2))
        batch store nw)).1 := by
  constructor
  · intro row hrow
    rcases persist_foldl_mem (insertTransfersBatch tbl batch) _ (anoms, 0) row hrow
      with hold | ⟨a, ha, hrowOf⟩
    · exact Or.inl hold
    · right
      obtain ⟨t, ht, hftr⟩ := mem_analyzeBatch_fields cfg _ batch store nw a ha
      obtain ⟨hac, hah, hal, hr0, hr1⟩ := hftr
      have hkey : hasTransferKey (insertTransfersBatch tbl batch) t = true :=
        hasKey_after_batch batch tbl t ht
      have hsome := findTransferId_isSome (insertTransfersBatch tbl batch) t hkey
      obtain ⟨i, hi⟩ := Option.isSome_iff_exists.mp hsome
      obtain ⟨u, humem, huc, huh, hul⟩ :=
        findTransferId_some (insertTransfersBatch tbl batch) _ _ _ i hi
      have htid : row.transferId = some i := by
        rw [hrowOf]
        show findTransferId (insertTransfersBatch tbl batch)
          a.chainId a.txHash a.logIndex = some i
        rw [hac, hah, hal]
        exact hi
      have hrisk : row.riskScore = a.riskScore := by rw [hrowOf]; rfl
      refine ⟨a, ha, hrowOf, ?_, ?_, i, u, htid, humem, ?_, ?_, ?_⟩
      · rw [hrisk]; exact hr0
      · rw [hrisk]; exact hr1
      · rw [huc, ← hac]
      · rw [huh, ← hah]
      · rw [hul, ← hal]
  · exact persist_foldl_unique (insertTransfersBatch tbl batch) _ (anoms, 0) hu

/-- Witness: the 500,000 USDC batch inserted into an empty database and
analysed with the default-threshold config persists rows that all join to
their transfer with risk in bounds. -/
theorem persisted_anomalies_join_and_risk_witness :
    (∀ row ∈ (persistAnomalies (insertTransfersBatch emptyTransfersTable [usdc500k]) []
        (analyzeBatch cfgDefaultThreshold
          ((insertTransfersBatch emptyTransfersTable [usdc500k]).rows.map (·.2))
          [usdc500k] [] [])).1,
      row ∈ ([] : List AnomalyRow) ∨
        ∃ a ∈ analyzeBatch cfgDefaultThreshold
            ((insertTransfersBatch emptyTransfersTable [usdc500k]).rows.map (·.2))
            [usdc500k] [] [],
          row = anomalyRowOf (insertTransfersBatch emptyTransfersTable [usdc500k]) a ∧
          0 ≤ row.riskScore ∧ row.riskScore ≤ 100 ∧
          ∃ i u, row.transferId = some i ∧
            (i, u) ∈ (insertTransfersBatch emptyTransfersTable [usdc500k]).rows ∧
            u.chainId = a.chainId ∧ u.txHash = a.txHash ∧
            u.logIndex = a.logIndex) ∧
    anomaliesUnique (persistAnomalies (insertTransfersBatch emptyTransfersTable [usdc500k]) []
      (analyzeBatch cfgDefaultThreshold
        ((insertTransfersBatch emptyTransfersTable [usdc500k]).rows.map (·.2))
        [usdc500k] [] [])).1 :=
  persisted_anomalies_join_and_risk emptyTransfersTable [] [usdc500k]
    cfgDefaultThreshold [] [] (by simp [anomaliesUnique])

end StableGuard
